import Mathlib

/-!
Verification development for the evolutionary-computation engine in
`GeneticProgram.py` (classes `IndividualClass` and `GeneticProgramClass`).

The embedding is shallow: Python floats are modeled by `XR` (an exact
rational extended with the two infinities and a not-a-number value, mirroring
the IEEE behavior the code can reach through `numpy`'s `-np.inf`), Python
lists by `List`, the `None`-able `objective_values` attribute by `Option`,
and a raised exception by an `Option` result of the enclosing call.
Randomness (`random.choices`) is modeled by an oracle `draws : Nat → Nat` of
outcomes together with a running draw counter.  Python's `sorted`/`list.sort`
is modeled by the stable ascending insertion sort `iSort`, which agrees with
the CPython guarantee (stable sort driven by `__lt__`, resp. by the sort key).
Plotting (`colored_plot`), CSV logging (`logs_checkpoint`, `logs_to_file`),
`print` calls and the `experiment_name` bookkeeping are display-only I/O with
no effect on the evolutionary state and are not modeled.
-/

/-! ### Python floats -/

/-- A Python/numpy float as the code can produce it: a finite value (modeled
exactly, as a rational), one of the two infinities (`-np.inf` appears as the
boundary sentinel in `_crowding_distance`), or `nan` (which `inf - inf`
produces). -/
inductive XR where
  | nan : XR
  | negInf : XR
  | fin (q : ℚ) : XR
  | posInf : XR
deriving DecidableEq

namespace XR

/-- Python float `<` (IEEE): comparisons with `nan` are `False`. -/
def lt : XR → XR → Bool
  | nan, _ => false
  | _, nan => false
  | negInf, negInf => false
  | negInf, _ => true
  | fin _, negInf => false
  | fin a, fin b => decide (a < b)
  | fin _, posInf => true
  | posInf, _ => false

/-- Python float `==` (IEEE): `nan` is not equal to anything, itself included. -/
def eqB : XR → XR → Bool
  | fin a, fin b => decide (a = b)
  | negInf, negInf => true
  | posInf, posInf => true
  | _, _ => false

/-- IEEE negation. -/
def neg : XR → XR
  | nan => nan
  | negInf => posInf
  | posInf => negInf
  | fin q => fin (-q)

/-- IEEE addition; note `(-inf) + inf = nan`. -/
def add : XR → XR → XR
  | nan, _ => nan
  | _, nan => nan
  | negInf, posInf => nan
  | posInf, negInf => nan
  | negInf, _ => negInf
  | _, negInf => negInf
  | posInf, _ => posInf
  | _, posInf => posInf
  | fin a, fin b => fin (a + b)

/-- IEEE subtraction (`a + (-b)`); note `(-inf) - (-inf) = nan`. -/
def sub (a b : XR) : XR := a.add b.neg

/-- Python `float / int` for a positive integer divisor (the divisor here is
`len(objective_values)`).  A zero divisor would raise `ZeroDivisionError`;
that case is modeled as `nan` and is unreachable under the hypotheses used. -/
def divNat : XR → Nat → XR
  | _, 0 => nan
  | nan, _ => nan
  | negInf, _ => negInf
  | posInf, _ => posInf
  | fin q, n => fin (q / n)

/-- A Python `int` seen as a float value. -/
def ofInt (i : Int) : XR := fin i

/-- Python `sum(ds)`: a left fold starting from the integer `0`. -/
def listSum (l : List XR) : XR := l.foldl add (fin 0)

/-- Python `max(l)`: scan keeping the current value unless a strictly larger
one appears.  `max` of an empty list raises `ValueError`; that case is modeled
as `nan` and is unreachable under the hypotheses used. -/
def listMax : List XR → XR
  | [] => nan
  | x :: xs => xs.foldl (fun c v => if lt c v then v else c) x

end XR

/-! ### `IndividualClass` and its comparisons -/

/-- The `evaluation` attribute of an `IndividualClass` instance: Python stores
either a bare float (single-objective mode, line 252) or a list of floats
(the constructor's initial `[]` and the multi-objective mode); `__lt__` and
`__eq__` dispatch on `isinstance(self.evaluation, list)`. -/
inductive Evaluation where
  | scalar (x : XR) : Evaluation
  | vec (xs : List XR) : Evaluation
deriving DecidableEq

/-- The list branch of `IndividualClass.__lt__`: scan the indices of
`self.evaluation`; `self[i] > other[i]` returns `False` and `self[i] < other[i]`
returns `True`; falling off the end of the loop returns Python `None`, which is
falsy where the result is consumed (`sorted`), modeled as `false`.  Indexing
`other` past its end would raise `IndexError` (unreachable in `fit`, where all
compared evaluations share one shape); that case is modeled as `false`. -/
def pyLtList : List XR → List XR → Bool
  | [], _ => false
  | _ :: _, [] => false
  | x :: xs, y :: ys =>
    if XR.lt y x then false else if XR.lt x y then true else pyLtList xs ys

/-- `IndividualClass.__lt__`.  Comparing a bare float with a list would raise
`TypeError` in Python (unreachable in `fit`); those cases are modeled as
`false`. -/
def Evaluation.pyLt : Evaluation → Evaluation → Bool
  | .scalar a, .scalar b => XR.lt a b
  | .vec xs, .vec ys => pyLtList xs ys
  | _, _ => false

/-- The list branch of `IndividualClass.__eq__`: iterate over the indices of
`self.evaluation` only; any component-wise difference returns `False`, and the
loop running to completion returns `True`.  `none` models the `IndexError`
raised when `other.evaluation` is shorter than `self.evaluation`. -/
def pyEqList : List XR → List XR → Option Bool
  | [], _ => some true
  | _ :: _, [] => none
  | x :: xs, y :: ys => if XR.eqB x y then pyEqList xs ys else some false

/-- `IndividualClass.__eq__` across shapes: a float `self` against a list
`other` evaluates `float == list`, which is plainly `False`; a list `self`
against a float `other` runs the index loop, which returns `True` vacuously
when `self.evaluation` is empty and raises `TypeError` (a float is not
subscriptable, modeled `none`) as soon as it indexes `other.evaluation`. -/
def Evaluation.pyEq : Evaluation → Evaluation → Option Bool
  | .scalar a, .scalar b => some (XR.eqB a b)
  | .vec xs, .vec ys => pyEqList xs ys
  | .scalar _, .vec _ => some false
  | .vec [], .scalar _ => some true
  | .vec (_ :: _), .scalar _ => none

/-- `IndividualClass`: a fenotype, the derived ranking key `evaluation`
(initialized by the constructor to the empty list), and the memoized
`objective_values` (initialized to `None` everywhere in this code). -/
structure IndividualClass (F : Type) where
  fenotype : F
  evaluation : Evaluation := .vec []
  objective_values : Option (List ℚ) := none
deriving DecidableEq

/-- Individual equality, as `sorted` and `==` see it: it only looks at the
`evaluation` attributes. -/
def IndividualClass.eq {F : Type} (a b : IndividualClass F) : Option Bool :=
  a.evaluation.pyEq b.evaluation

instance {F : Type} [Inhabited F] : Inhabited (IndividualClass F) :=
  ⟨{ fenotype := default }⟩

/-- The ordering every `sorted(...)` call in the source induces: CPython sorts
stably using `__lt__` only, placing `a` no later than `b` exactly when
`not (b < a)`. -/
def indLe {F : Type} (a b : IndividualClass F) : Bool :=
  !(Evaluation.pyLt b.evaluation a.evaluation)

/-! ### Stable sort (model of Python `sorted` / `list.sort`) -/

/-- Insert `a` before the first element `b` with `le a b`.  With a total `le`
this realizes the unique stable ascending sort. -/
def oInsert {α : Type} (le : α → α → Bool) (a : α) : List α → List α
  | [] => [a]
  | b :: l => if le a b then a :: b :: l else b :: oInsert le a l

/-- Stable ascending sort, the model of Python `sorted`. -/
def iSort {α : Type} (le : α → α → Bool) : List α → List α
  | [] => []
  | a :: l => oInsert le a (iSort le l)

theorem oInsert_perm {α : Type} (le : α → α → Bool) (a : α) (l : List α) :
    (oInsert le a l).Perm (a :: l) := by
  induction l with
  | nil => simp [oInsert]
  | cons b t ih =>
    by_cases h : le a b = true
    · simp [oInsert, h]
    · rw [oInsert, if_neg h]
      exact (ih.cons b).trans (List.Perm.swap a b t)

theorem iSort_perm {α : Type} (le : α → α → Bool) (l : List α) :
    (iSort le l).Perm l := by
  induction l with
  | nil => simp [iSort]
  | cons a t ih => exact (oInsert_perm le a (iSort le t)).trans (ih.cons a)

theorem iSort_length {α : Type} (le : α → α → Bool) (l : List α) :
    (iSort le l).length = l.length :=
  (iSort_perm le l).length_eq

theorem iSort_mem {α : Type} (le : α → α → Bool) (l : List α) (a : α) :
    a ∈ iSort le l ↔ a ∈ l :=
  (iSort_perm le l).mem_iff

theorem oInsert_pairwise {α : Type} (le : α → α → Bool) (a : α) (l : List α)
    (hl : l.Pairwise (fun x y => le x y = true))
    (htot : ∀ b ∈ l, le a b = true ∨ le b a = true)
    (htr : ∀ b ∈ l, ∀ c ∈ l, le a b = true → le b c = true → le a c = true) :
    (oInsert le a l).Pairwise (fun x y => le x y = true) := by
  induction l with
  | nil => simp [oInsert]
  | cons b t ih =>
    by_cases h : le a b = true
    · rw [oInsert, if_pos h]
      refine List.Pairwise.cons ?_ hl
      intro x hx
      rcases List.mem_cons.1 hx with hx | hx
      · rw [hx]; exact h
      · exact htr b (by simp) x (by simp [hx]) h ((List.pairwise_cons.1 hl).1 x hx)
    · rw [oInsert, if_neg h]
      have hba : le b a = true := by
        rcases htot b (by simp) with h1 | h1
        · exact absurd h1 h
        · exact h1
      refine List.Pairwise.cons ?_ ?_
      · intro x hx
        rcases List.mem_cons.1 ((oInsert_perm le a t).mem_iff.1 hx) with hx | hx
        · rw [hx]; exact hba
        · exact (List.pairwise_cons.1 hl).1 x hx
      · exact ih (List.pairwise_cons.1 hl).2
          (fun c hc => htot c (by simp [hc]))
          (fun c hc d hd => htr c (by simp [hc]) d (by simp [hd]))

theorem iSort_pairwise {α : Type} (le : α → α → Bool) (l : List α)
    (htot : ∀ a ∈ l, ∀ b ∈ l, le a b = true ∨ le b a = true)
    (htr : ∀ a ∈ l, ∀ b ∈ l, ∀ c ∈ l,
      le a b = true → le b c = true → le a c = true) :
    (iSort le l).Pairwise (fun x y => le x y = true) := by
  induction l with
  | nil => simp [iSort]
  | cons a t ih =>
    refine oInsert_pairwise le a (iSort le t) ?_ ?_ ?_
    · exact ih (fun x hx y hy => htot x (by simp [hx]) y (by simp [hy]))
        (fun x hx y hy z hz =>
          htr x (by simp [hx]) y (by simp [hy]) z (by simp [hz]))
    · intro b hb
      exact htot a (by simp) b (by simp [(iSort_mem le t b).1 hb])
    · intro b hb c hc
      exact htr a (by simp) b (by simp [(iSort_mem le t b).1 hb])
        c (by simp [(iSort_mem le t c).1 hc])

/-! ### Order facts about the Python comparisons -/

theorem XR.lt_asymm {a b : XR} (h : XR.lt a b = true) : XR.lt b a = false := by
  cases a <;> cases b <;> simp_all [XR.lt] <;> exact h.le

theorem XR.lt_irrefl (a : XR) : XR.lt a a = false := by
  cases a <;> simp [XR.lt]

theorem XR.ltTrans {a b c : XR} (h1 : XR.lt a b = true) (h2 : XR.lt b c = true) :
    XR.lt a c = true := by
  cases a <;> cases b <;> cases c <;> simp_all [XR.lt]
  exact lt_trans h1 h2

theorem XR.lt_connex {a b : XR} (ha : a ≠ XR.nan) (hb : b ≠ XR.nan) :
    XR.lt a b = true ∨ XR.lt b a = true ∨ a = b := by
  cases a with
  | nan => exact absurd rfl ha
  | negInf => cases b <;> simp_all [XR.lt]
  | posInf => cases b <;> simp_all [XR.lt]
  | fin q =>
    cases b with
    | nan => exact absurd rfl hb
    | negInf => simp [XR.lt]
    | posInf => simp [XR.lt]
    | fin r =>
      simp only [XR.lt, decide_eq_true_eq, XR.fin.injEq]
      rcases lt_trichotomy q r with h | h | h
      · exact Or.inl h
      · exact Or.inr (Or.inr h)
      · exact Or.inr (Or.inl h)

theorem XR.eqB_refl {a : XR} (ha : a ≠ XR.nan) : XR.eqB a a = true := by
  cases a <;> simp_all [XR.eqB]

theorem pyLtList_cons_iff {x y : XR} {xs ys : List XR}
    (hx : x ≠ XR.nan) (hy : y ≠ XR.nan) :
    pyLtList (x :: xs) (y :: ys) = true ↔
      (XR.lt x y = true ∨ (x = y ∧ pyLtList xs ys = true)) := by
  rw [pyLtList]
  by_cases hyx : XR.lt y x = true
  · simp only [hyx, if_pos]
    constructor
    · intro h; exact absurd h (by simp)
    · rintro (h | ⟨rfl, h⟩)
      · rw [XR.lt_asymm h] at hyx; exact absurd hyx (by simp)
      · rw [XR.lt_irrefl] at hyx; exact absurd hyx (by simp)
  · by_cases hxy : XR.lt x y = true
    · simp [hyx, hxy]
    · rcases XR.lt_connex hx hy with h | h | h
      · exact absurd h hxy
      · exact absurd h hyx
      · simp [hyx, hxy, h, XR.lt_irrefl]

/-- All members are genuine (non-`nan`) values. -/
def NFL (l : List XR) : Prop := ∀ x ∈ l, x ≠ XR.nan

theorem pyLtList_asymm : ∀ {a b : List XR},
    pyLtList a b = true → pyLtList b a = false := by
  intro a
  induction a with
  | nil => intro b h; cases b <;> simp_all [pyLtList]
  | cons x xs ih =>
    intro b h
    cases b with
    | nil => simp_all [pyLtList]
    | cons y ys =>
      rw [pyLtList] at h ⊢
      by_cases hyx : XR.lt y x = true
      · simp [hyx] at h
      · rw [if_neg hyx] at h
        by_cases hxy : XR.lt x y = true
        · simp [hxy, XR.lt_asymm hxy]
        · rw [if_neg hxy] at h
          simp [hyx, hxy, ih h]

theorem pyLtList_trans : ∀ {a b c : List XR}, NFL a → NFL b → NFL c →
    a.length = b.length → b.length = c.length →
    pyLtList a b = true → pyLtList b c = true → pyLtList a c = true := by
  intro a
  induction a with
  | nil => intro b c _ _ _ _ _ h1; cases b <;> simp_all [pyLtList]
  | cons x xs ih =>
    intro b c ha hb hc hab hbc h1 h2
    cases b with
    | nil => simp at hab
    | cons y ys =>
      cases c with
      | nil => simp at hbc
      | cons z zs =>
        have hx : x ≠ XR.nan := ha x (by simp)
        have hy : y ≠ XR.nan := hb y (by simp)
        have hz : z ≠ XR.nan := hc z (by simp)
        rw [pyLtList_cons_iff hx hy] at h1
        rw [pyLtList_cons_iff hy hz] at h2
        rw [pyLtList_cons_iff hx hz]
        rcases h1 with h1 | ⟨rfl, h1⟩
        · rcases h2 with h2 | ⟨rfl, h2⟩
          · exact Or.inl (XR.ltTrans h1 h2)
          · exact Or.inl h1
        · rcases h2 with h2 | ⟨rfl, h2⟩
          · exact Or.inl h2
          · refine Or.inr ⟨rfl, ?_⟩
            exact ih (fun v hv => ha v (by simp [hv]))
              (fun v hv => hb v (by simp [hv]))
              (fun v hv => hc v (by simp [hv]))
              (by simpa using hab) (by simpa using hbc) h1 h2

theorem pyLtList_connex : ∀ {a b : List XR}, NFL a → NFL b →
    a.length = b.length →
    pyLtList a b = true ∨ pyLtList b a = true ∨ a = b := by
  intro a
  induction a with
  | nil => intro b _ _ h; cases b <;> simp_all
  | cons x xs ih =>
    intro b ha hb hab
    cases b with
    | nil => simp at hab
    | cons y ys =>
      have hx : x ≠ XR.nan := ha x (by simp)
      have hy : y ≠ XR.nan := hb y (by simp)
      rcases XR.lt_connex hx hy with h | h | h
      · exact Or.inl ((pyLtList_cons_iff hx hy).2 (Or.inl h))
      · exact Or.inr (Or.inl ((pyLtList_cons_iff hy hx).2 (Or.inl h)))
      · rcases ih (fun v hv => ha v (List.mem_cons_of_mem x hv))
            (fun v hv => hb v (List.mem_cons_of_mem y hv))
            (by simpa using hab) with h2 | h2 | h2
        · exact Or.inl ((pyLtList_cons_iff hx hy).2 (Or.inr ⟨h, h2⟩))
        · exact Or.inr (Or.inl ((pyLtList_cons_iff hy hx).2 (Or.inr ⟨h.symm, h2⟩)))
        · exact Or.inr (Or.inr (by rw [h, h2]))

/-! ### The spec-side lexicographic order on evaluations -/

/-- Lexicographic less-or-equal on lists of float values (the spec's
"ascending order, lower is better at each component, first differing component
decides"). -/
def lexLeList : List XR → List XR → Bool
  | [], _ => true
  | _ :: _, [] => false
  | x :: xs, y :: ys => XR.lt x y || (XR.eqB x y && lexLeList xs ys)

/-- Lexicographic less-or-equal on evaluations. -/
def Evaluation.lexLe : Evaluation → Evaluation → Bool
  | .scalar a, .scalar b => XR.lt a b || XR.eqB a b
  | .vec xs, .vec ys => lexLeList xs ys
  | _, _ => false

/-- The evaluation holds no `nan` component. -/
def Evaluation.NanFree : Evaluation → Prop
  | .scalar x => x ≠ XR.nan
  | .vec xs => NFL xs

/-- Two evaluations of the same Python shape (both bare floats, or lists of
equal length): the shapes `fit` actually produces within one population. -/
def Evaluation.sameShape : Evaluation → Evaluation → Prop
  | .scalar _, .scalar _ => True
  | .vec xs, .vec ys => xs.length = ys.length
  | _, _ => False

theorem XR.eqB_iff {a b : XR} (ha : a ≠ XR.nan) : XR.eqB a b = true ↔ a = b := by
  cases a <;> cases b <;> simp_all [XR.eqB]

theorem lexLeList_iff : ∀ {a b : List XR}, NFL a → NFL b → a.length = b.length →
    (lexLeList a b = true ↔ (pyLtList a b = true ∨ a = b)) := by
  intro a
  induction a with
  | nil => intro b _ _ h; cases b <;> simp_all [lexLeList, pyLtList]
  | cons x xs ih =>
    intro b ha hb hab
    cases b with
    | nil => simp at hab
    | cons y ys =>
      have hx : x ≠ XR.nan := ha x (by simp)
      have hy : y ≠ XR.nan := hb y (by simp)
      rw [lexLeList, pyLtList_cons_iff hx hy]
      simp only [Bool.or_eq_true, Bool.and_eq_true, XR.eqB_iff hx, List.cons.injEq]
      constructor
      · rintro (h | ⟨rfl, h⟩)
        · exact Or.inl (Or.inl h)
        · rcases (ih (fun v hv => ha v (by simp [hv])) (fun v hv => hb v (by simp [hv]))
              (by simpa using hab)).1 h with h2 | h2
          · exact Or.inl (Or.inr ⟨rfl, h2⟩)
          · exact Or.inr ⟨rfl, h2⟩
      · rintro ((h | ⟨rfl, h⟩) | ⟨rfl, rfl⟩)
        · exact Or.inl h
        · refine Or.inr ⟨rfl, ?_⟩
          exact (ih (fun v hv => ha v (by simp [hv])) (fun v hv => hb v (by simp [hv]))
            (by simpa using hab)).2 (Or.inl h)
        · refine Or.inr ⟨rfl, ?_⟩
          exact (ih (fun v hv => ha v (by simp [hv])) (fun v hv => ha v (by simp [hv]))
            rfl).2 (Or.inr rfl)

theorem Evaluation.lexLe_iff {A B : Evaluation} (hA : A.NanFree) (hB : B.NanFree)
    (hs : A.sameShape B) :
    A.lexLe B = true ↔ (A.pyLt B = true ∨ A = B) := by
  cases A with
  | scalar a =>
    cases B with
    | scalar b =>
      simp only [lexLe, pyLt, Bool.or_eq_true, Evaluation.scalar.injEq]
      rw [XR.eqB_iff hA]
    | vec ys => exact absurd hs (by simp [sameShape])
  | vec xs =>
    cases B with
    | scalar b => exact absurd hs (by simp [sameShape])
    | vec ys =>
      simp only [lexLe, pyLt, Evaluation.vec.injEq]
      exact lexLeList_iff hA hB hs

theorem Evaluation.pyLt_asymm {A B : Evaluation} (h : A.pyLt B = true) :
    B.pyLt A = false := by
  cases A <;> cases B <;> simp_all [pyLt]
  · exact XR.lt_asymm h
  · exact pyLtList_asymm h

theorem Evaluation.pyLt_connex {A B : Evaluation} (hA : A.NanFree) (hB : B.NanFree)
    (hs : A.sameShape B) :
    A.pyLt B = true ∨ B.pyLt A = true ∨ A = B := by
  cases A with
  | scalar a =>
    cases B with
    | scalar b =>
      simp only [pyLt, Evaluation.scalar.injEq]
      exact XR.lt_connex hA hB
    | vec ys => exact absurd hs (by simp [sameShape])
  | vec xs =>
    cases B with
    | scalar b => exact absurd hs (by simp [sameShape])
    | vec ys =>
      simp only [pyLt, Evaluation.vec.injEq]
      exact pyLtList_connex hA hB hs

theorem Evaluation.pyLtTrans {A B C : Evaluation}
    (hA : A.NanFree) (hB : B.NanFree) (hC : C.NanFree)
    (hsAB : A.sameShape B) (hsBC : B.sameShape C)
    (h1 : A.pyLt B = true) (h2 : B.pyLt C = true) : A.pyLt C = true := by
  cases A with
  | scalar a =>
    cases B with
    | scalar b =>
      cases C with
      | scalar c => exact XR.ltTrans h1 h2
      | vec _ => exact absurd hsBC (by simp [sameShape])
    | vec _ => exact absurd hsAB (by simp [sameShape])
  | vec xs =>
    cases B with
    | scalar _ => exact absurd hsAB (by simp [sameShape])
    | vec ys =>
      cases C with
      | scalar _ => exact absurd hsBC (by simp [sameShape])
      | vec zs => exact pyLtList_trans hA hB hC hsAB hsBC h1 h2

/-! ### Well-behaved populations: `nan`-free, shape-uniform evaluations -/

/-- All evaluations in the population are `nan`-free and share one Python
shape — the situation in which `sorted`'s comparisons are a total preorder
(any appearing `nan` makes Python's comparisons non-transitive and the sort
outcome unspecified). -/
def EvalsOK {F : Type} (pop : List (IndividualClass F)) : Prop :=
  (∀ ind ∈ pop, ind.evaluation.NanFree) ∧
  ∀ a ∈ pop, ∀ b ∈ pop, a.evaluation.sameShape b.evaluation

theorem Evaluation.sameShape_symm {A B : Evaluation} (h : A.sameShape B) :
    B.sameShape A := by
  cases A <;> cases B <;> simp_all [sameShape]

theorem Evaluation.sameShape_trans {A B C : Evaluation}
    (h1 : A.sameShape B) (h2 : B.sameShape C) : A.sameShape C := by
  cases A <;> cases B <;> cases C <;> simp_all [sameShape]

theorem indLe_total {F : Type} (a b : IndividualClass F) :
    indLe a b = true ∨ indLe b a = true := by
  by_cases h : Evaluation.pyLt b.evaluation a.evaluation = true
  · right
    simp [indLe, Evaluation.pyLt_asymm h]
  · left
    simp only [indLe, Bool.not_eq_true']
    exact Bool.eq_false_iff.2 h

theorem indLe_trans_ok {F : Type} {a b c : IndividualClass F}
    (hA : a.evaluation.NanFree) (hB : b.evaluation.NanFree)
    (hC : c.evaluation.NanFree)
    (hsAB : a.evaluation.sameShape b.evaluation)
    (hsBC : b.evaluation.sameShape c.evaluation)
    (h1 : indLe a b = true) (h2 : indLe b c = true) : indLe a c = true := by
  simp only [indLe, Bool.not_eq_true'] at h1 h2 ⊢
  by_contra hca
  have hca2 : Evaluation.pyLt c.evaluation a.evaluation = true := by
    revert hca
    cases Evaluation.pyLt c.evaluation a.evaluation <;> simp
  rcases Evaluation.pyLt_connex hA hB hsAB with h | h | h
  · have hcb := Evaluation.pyLtTrans hC hA hB
      (Evaluation.sameShape_symm (Evaluation.sameShape_trans hsAB hsBC)) hsAB hca2 h
    rw [hcb] at h2; cases h2
  · rw [h] at h1; cases h1
  · rw [h] at hca2; rw [hca2] at h2; cases h2

theorem EvalsOK_of_mem_subset {F : Type} {pop pop2 : List (IndividualClass F)}
    (hsub : ∀ a ∈ pop2, a ∈ pop) (h : EvalsOK pop) : EvalsOK pop2 :=
  ⟨fun ind hi => h.1 ind (hsub ind hi),
   fun a ha b hb => h.2 a (hsub a ha) b (hsub b hb)⟩

theorem iSort_pairwise_indLe {F : Type} (pop : List (IndividualClass F))
    (h : EvalsOK pop) :
    (iSort indLe pop).Pairwise (fun a b => indLe a b = true) :=
  iSort_pairwise indLe pop
    (fun a _ b _ => indLe_total a b)
    (fun a ha b hb c hc h1 h2 =>
      indLe_trans_ok (h.1 a ha) (h.1 b hb) (h.1 c hc)
        (h.2 a ha b hb) (h.2 b hb c hc) h1 h2)

/-- In a `Pairwise indLe` (that is, sorted) well-behaved population, the head's
evaluation is lexicographically at most every member's evaluation. -/
theorem pairwise_head_lexLe {F : Type} [Inhabited F]
    {pop : List (IndividualClass F)} (hok : EvalsOK pop)
    (hp : pop.Pairwise (fun a b => indLe a b = true)) :
    ∀ ind ∈ pop, ((pop.headD default).evaluation).lexLe ind.evaluation = true := by
  cases pop with
  | nil => intro ind h; cases h
  | cons h0 t =>
    intro ind hi
    have hnf0 : h0.evaluation.NanFree := hok.1 h0 (by simp)
    have hnfi : ind.evaluation.NanFree := hok.1 ind hi
    have hsh : h0.evaluation.sameShape ind.evaluation := hok.2 h0 (by simp) ind hi
    rcases List.mem_cons.1 hi with rfl | hi
    · simp only [List.headD_cons]
      rw [Evaluation.lexLe_iff hnf0 hnfi hsh]
      exact Or.inr rfl
    · have hle : indLe h0 ind = true := (List.pairwise_cons.1 hp).1 ind hi
      simp only [indLe, Bool.not_eq_true'] at hle
      rw [List.headD_cons, Evaluation.lexLe_iff hnf0 hnfi hsh]
      rcases Evaluation.pyLt_connex hnf0 hnfi hsh with h | h | h
      · exact Or.inl h
      · rw [h] at hle; cases hle
      · exact Or.inr h

/-! ### `GeneticProgramClass`: configuration and collaborators -/

/-- The external `Model` collaborator (candidate representation operators).
`F` is the fenotype type, `X` the prediction input type, `P` the prediction
type. -/
structure ModelClass (F X P : Type) where
  generate_population : Nat → List F
  mutate : F → F
  crossover : F → F → F
  evaluate : F → X → P

/-- The engine's state after `__init__`: the configuration as stored.  `Y` is
the label type.  Each objective function is modeled as already closed over its
`objective_functions_arguments` entry (the `*args` spread), so it takes the
labels and the prediction.  The display-only attributes (`experiment_name`,
`logs`, `logs_level`, plotting bookkeeping) and the mutable run state
(`population`, `x_train`, ..., set by `fit`) are not configuration and are
threaded explicitly through the functions below instead. -/
structure GeneticProgramClass (F X Y P : Type) where
  population_size : Nat
  generations : Int
  Model : ModelClass F X P
  objective_functions : List (Y → P → ℚ)
  multiobjective_fitness : String
  sampling_method : String
  mutation_ratio : ℚ
  tournament_size : Nat
  objectives : Nat

/-- `GeneticProgramClass.__init__`: every configuration argument is stored as
given — no validation of any kind is performed — and `objectives` is set to
the number of objective functions.  (The Python `isinstance` wrap of a single
non-list objective function is a typing artifact with no Lean counterpart:
`objective_functions` is already a list here.) -/
def GeneticProgramClass.init {F X Y P : Type} (population_size : Nat)
    (generations : Int) (Model : ModelClass F X P)
    (objective_functions : List (Y → P → ℚ))
    (multiobjective_fitness sampling_method : String)
    (mutation_ratio : ℚ) (tournament_size : Nat) :
    GeneticProgramClass F X Y P :=
  { population_size := population_size
    generations := generations
    Model := Model
    objective_functions := objective_functions
    multiobjective_fitness := multiobjective_fitness
    sampling_method := sampling_method
    mutation_ratio := mutation_ratio
    tournament_size := tournament_size
    objectives := objective_functions.length }

/-- `math.ceil` on an exact rational, written in a kernel-computable form. -/
def pyCeil (q : ℚ) : Int := -((-q).num / ((-q).den : Int))

theorem pyCeil_eq (q : ℚ) : pyCeil q = ⌈q⌉ := by
  rw [pyCeil, ← Rat.floor_def, Int.floor_neg, neg_neg]

/-! ### `_spea2` -/

/-- `objective_values[obj_idx][ind_idx]`.  Out-of-range indexing would raise
`IndexError` in Python; the defaults are unreachable under the index bounds
maintained by the callers and hypotheses below. -/
def objVal (vals : List (List ℚ)) (o i : Nat) : ℚ := (vals.getD o []).getD i 0

/-- The `dominated` flag of the strengths loop in `GeneticProgramClass._spea2`:
it survives the objective loop iff no objective has
`objective_values[obj][ind] < objective_values[obj][comp]`. -/
def spea2_dominated (objectives : Nat) (vals : List (List ℚ)) (ind comp : Nat) : Bool :=
  (List.range objectives).all (fun o => !(decide (objVal vals o ind < objVal vals o comp)))

/-- The `strengths` list of `_spea2`: for each individual, the number of
individuals (itself included) whose vector it weakly dominates, minus one.
`individuals` is `len(objective_values[0])` (Python raises if the matrix is
empty; theorems below assume it is not). -/
def spea2_strengths (objectives : Nat) (vals : List (List ℚ)) : List Int :=
  let individuals := (vals.getD 0 []).length
  (List.range individuals).map (fun ind =>
    ((List.range individuals).countP (fun comp => spea2_dominated objectives vals ind comp) : Int) - 1)

/-- The `dominates_me` flag of the raw-fitness loop in `_spea2`: it survives
iff every objective has `objective_values[obj][ind] < objective_values[obj][comp]`. -/
def spea2_dominates_me (objectives : Nat) (vals : List (List ℚ)) (ind comp : Nat) : Bool :=
  (List.range objectives).all (fun o => !(decide (objVal vals o ind ≥ objVal vals o comp)))

/-- `GeneticProgramClass._spea2`: the returned `evaluations` list (raw
fitness): for each individual, the sum of the strengths of the individuals
whose flag `dominates_me` survives. -/
def spea2 (objectives : Nat) (vals : List (List ℚ)) : List Int :=
  let individuals := (vals.getD 0 []).length
  let strengths := spea2_strengths objectives vals
  (List.range individuals).map (fun ind =>
    (List.range individuals).foldl (fun acc comp =>
      if spea2_dominates_me objectives vals ind comp then acc + strengths.getD comp 0 else acc) 0)

/-- Spec-side predicate: individual `j`'s objective vector is component-wise
less than or equal to individual `i`'s, in every objective (weak domination of
`j` by `i`, maximization convention). -/
def weakDomPred (objectives : Nat) (vals : List (List ℚ)) (i j : Nat) : Prop :=
  ∀ o < objectives, objVal vals o j ≤ objVal vals o i

/-- Spec-side predicate: individual `j`'s objective vector is strictly greater
than individual `i`'s in every objective (`j` strictly dominates `i`). -/
def strictDomPred (objectives : Nat) (vals : List (List ℚ)) (i j : Nat) : Prop :=
  ∀ o < objectives, objVal vals o i < objVal vals o j

instance (objectives : Nat) (vals : List (List ℚ)) (i j : Nat) :
    Decidable (weakDomPred objectives vals i j) :=
  Nat.decidableBallLT objectives _

instance (objectives : Nat) (vals : List (List ℚ)) (i j : Nat) :
    Decidable (strictDomPred objectives vals i j) :=
  Nat.decidableBallLT objectives _

theorem spea2_dominated_iff (objectives : Nat) (vals : List (List ℚ)) (i j : Nat) :
    spea2_dominated objectives vals i j = true ↔ weakDomPred objectives vals i j := by
  simp only [spea2_dominated, List.all_eq_true, List.mem_range, Bool.not_eq_true',
    decide_eq_false_iff_not, not_lt, weakDomPred]

theorem spea2_dominates_me_iff (objectives : Nat) (vals : List (List ℚ)) (i j : Nat) :
    spea2_dominates_me objectives vals i j = true ↔ strictDomPred objectives vals i j := by
  simp only [spea2_dominates_me, List.all_eq_true, List.mem_range, Bool.not_eq_true',
    decide_eq_false_iff_not, not_le, strictDomPred, ge_iff_le]

/-! ### `_crowding_distance` -/

/-- An entry of `items` in `_crowding_distance`: the per-objective values of
one individual (so that `item[objective_idx]` is that dimension's value)
together with the individual's index (`item[-1]`). -/
abbrev CDItem := List ℚ × Nat

/-- `items = list(zip(*objective_values, list(range(len(objective_values[0])))))`.
Python's `zip` truncates to the shortest of its arguments; when every row has
length `len(objective_values[0])` (the well-formedness the callers provide and
the theorems assume) the index form used here is exactly the zip. -/
def cdInit (vals : List (List ℚ)) : List CDItem :=
  (List.range (vals.getD 0 []).length).map (fun i => (vals.map (fun row => row.getD i 0), i))

/-- The `defaultdict(list)` accumulator `distances` of `_crowding_distance`:
its keys in insertion order, and the list held at each key. -/
structure DistMap where
  keys : List Nat
  val : Nat → List XR

def DistMap.empty : DistMap := ⟨[], fun _ => []⟩

/-- `distances[k].append(x)` (on a `defaultdict(list)`, a fresh key is born
with the empty list). -/
def DistMap.push (m : DistMap) (k : Nat) (x : XR) : DistMap :=
  ⟨if k ∈ m.keys then m.keys else m.keys ++ [k],
   fun j => if j = k then m.val k ++ [x] else m.val j⟩

/-- `items.sort(key=lambda item: item[objective_idx])`: CPython's `list.sort`
is the stable ascending sort by the key. -/
def cdSortDim (d : Nat) (items : List CDItem) : List CDItem :=
  iSort (fun a b => decide (a.1.getD d 0 ≤ b.1.getD d 0)) items

/-- Dummy item for the out-of-range indexings (where Python would raise
`IndexError`); unreachable for the nonempty item lists the theorems assume. -/
def cdDummy : CDItem := ([], 0)

/-- One iteration of the objective loop of `_crowding_distance`: re-sort the
(carried-over) `items` by dimension `d`, give the two boundary items a
`-np.inf` contribution, and give each interior item the difference between its
two neighbors' values in dimension `d`.  (`items[-1]` is Python for the last
item.) -/
def cdStep (st : List CDItem × DistMap) (d : Nat) : List CDItem × DistMap :=
  let items := cdSortDim d st.1
  let dm := st.2.push (items.getD 0 cdDummy).2 XR.negInf
  let dm := dm.push (items.getD (items.length - 1) cdDummy).2 XR.negInf
  let dm := (List.range' 1 (items.length - 2)).foldl (fun dm i =>
    dm.push (items.getD i cdDummy).2
      (XR.fin ((items.getD (i + 1) cdDummy).1.getD d 0 - (items.getD (i - 1) cdDummy).1.getD d 0))) dm
  (items, dm)

/-- `GeneticProgramClass._crowding_distance`.  The closing comprehension builds
`(index, sum(ds)/len(objective_values))` pairs and sorts them by index; since
the keys are pairwise distinct this is the same as sorting the keys and
mapping, which is the form written here.  After the mean distances are read
off in index order, the list is inverted against its maximum. -/
def crowding_distance (vals : List (List ℚ)) : List XR :=
  let st := (List.range vals.length).foldl cdStep (cdInit vals, DistMap.empty)
  let sortedKeys := iSort (fun a b => decide (a ≤ b)) st.2.keys
  let cds := sortedKeys.map (fun k => (XR.listSum (st.2.val k)).divNat vals.length)
  let maxcd := XR.listMax cds
  cds.map (fun cd => XR.sub maxcd cd)

/-! ### `_evaluate_population` -/

/-- `individual.evaluation.append(value)` (line 279).  On the path that calls
it, `evaluation` has just been assigned a list; a bare float would raise
`AttributeError` in Python and that case is unreachable (modeled as the
identity). -/
def Evaluation.append1 : Evaluation → XR → Evaluation
  | .vec xs, x => .vec (xs ++ [x])
  | .scalar s, _ => .scalar s

/-- The memoization loop of `_evaluate_population` (lines 235–240): only an
individual whose `objective_values is None` calls `Model.evaluate` and the
objective functions; everyone else is left untouched. -/
def GeneticProgramClass.fill_objective_values {F X Y P : Type}
    (gp : GeneticProgramClass F X Y P) (x : X) (y : Y)
    (pop : List (IndividualClass F)) : List (IndividualClass F) :=
  pop.map (fun ind =>
    match ind.objective_values with
    | some _ => ind
    | none =>
      let prediction := gp.Model.evaluate ind.fenotype x
      { ind with objective_values := some (gp.objective_functions.map (fun f => f y prediction)) })

/-- The per-objective value matrix built at line 256 (`objective_values`):
row `o` lists `individual.objective_values[o]` over the population. -/
def GeneticProgramClass.objective_values_matrix {F X Y P : Type}
    (gp : GeneticProgramClass F X Y P) (pop : List (IndividualClass F)) :
    List (List ℚ) :=
  (List.range gp.objectives).map (fun o =>
    pop.map (fun ind => (ind.objective_values.getD []).getD o 0))

/-- `GeneticProgramClass._evaluate_population` on the training data.  The
`colored_plot` call is display-only I/O and not modeled.  The result is `none`
exactly on the multi-objective non-SPEA2 path: there the local name
`objective_values` is never bound, so line 277 raises `NameError` (the `NSGA2`
branch is `pass`). -/
def GeneticProgramClass.evaluate_population {F X Y P : Type}
    (gp : GeneticProgramClass F X Y P) (x : X) (y : Y)
    (pop : List (IndividualClass F)) : Option (List (IndividualClass F)) :=
  let pop := gp.fill_objective_values x y pop
  if gp.objectives = 1 then
    some (pop.map (fun ind =>
      { ind with evaluation := .scalar (XR.fin ((ind.objective_values.getD []).getD 0 0)) }))
  else if gp.multiobjective_fitness = "SPEA2" then
    let objective_values := gp.objective_values_matrix pop
    let evaluations := spea2 gp.objectives objective_values
    let pop := List.zipWith (fun i ind =>
        { ind with evaluation := Evaluation.vec [XR.ofInt (evaluations.getD i 0)] })
      (List.range pop.length) pop
    let crowding_distances := crowding_distance objective_values
    some (List.zipWith (fun i ind =>
        { ind with evaluation := ind.evaluation.append1 (crowding_distances.getD i XR.nan) })
      (List.range pop.length) pop)
  else none

/-! ### Selection -/

/-- `rd.choices(pop, k)`: sampling with replacement.  The oracle `draws`
supplies the outcomes — the draw made at counter position `c` selects index
`draws c mod pop.length`.  (Python raises on an empty population; the
`default` fallback is unreachable once the population is nonempty.) -/
def choices {α : Type} [Inhabited α] (pop : List α) (k : Nat)
    (draws : Nat → Nat) (ctr : Nat) : List α × Nat :=
  ((List.range k).map (fun j => pop.getD (draws (ctr + j) % pop.length) default), ctr + k)

/-- `GeneticProgramClass._tournament_selection`: `amount` times, draw
`tournament_size` competitors uniformly with replacement and keep
`sorted(competitors)[0]`. -/
def GeneticProgramClass.tournament_selection {F X Y P : Type} [Inhabited F]
    (gp : GeneticProgramClass F X Y P) (parent_population : List (IndividualClass F))
    (amount : Nat) (draws : Nat → Nat) (ctr : Nat) :
    List (IndividualClass F) × Nat :=
  (List.range amount).foldl (fun st _ =>
    let c := choices parent_population gp.tournament_size draws st.2
    (st.1 ++ [(iSort indLe c.1).headD default], c.2)) ([], ctr)

/-- `GeneticProgramClass._weighted_random_sample`: the parents are sorted and
`rd.choices(sorted_population, weights, k=amount)` is called with weights
`(N-i)/N`.  Under the outcome-oracle model of randomness the weights shape the
oracle's distribution, not the trace, so the sample is the oracle-selected
indices into the sorted population. -/
def GeneticProgramClass.weighted_random_sample {F X Y P : Type} [Inhabited F]
    (gp : GeneticProgramClass F X Y P) (parent_population : List (IndividualClass F))
    (amount : Nat) (draws : Nat → Nat) (ctr : Nat) :
    List (IndividualClass F) × Nat :=
  let sorted_population := iSort indLe parent_population
  choices sorted_population amount draws ctr

/-- The sampling-method dispatch of `fit` (lines 182–193), per selection call
(the source dispatches once around the three calls; with the same method for
all three this is the same thing). -/
def GeneticProgramClass.sample {F X Y P : Type} [Inhabited F]
    (gp : GeneticProgramClass F X Y P) (pop : List (IndividualClass F))
    (amount : Nat) (draws : Nat → Nat) (ctr : Nat) :
    List (IndividualClass F) × Nat :=
  if gp.sampling_method = "tournament" then gp.tournament_selection pop amount draws ctr
  else if gp.sampling_method = "weighted_random" then gp.weighted_random_sample pop amount draws ctr
  else choices pop amount draws ctr

/-! ### `fit` -/

/-- Parent selection and the two `population.extend` calls of one generation
(lines 181–197): two independent parent samples of size `crossovers`, one of
size `mutations`; then the mutants are appended, then the crossover
offspring — all as fresh individuals (`objective_values` unset).  A negative
count draws nothing, like Python `range`/`choices` on a negative argument. -/
def GeneticProgramClass.reproduce {F X Y P : Type} [Inhabited F]
    (gp : GeneticProgramClass F X Y P) (draws : Nat → Nat)
    (mutations crossovers : Int) (st : List (IndividualClass F) × Nat) :
    List (IndividualClass F) × Nat :=
  let pop := st.1
  let fp := gp.sample pop crossovers.toNat draws st.2
  let sp := gp.sample pop crossovers.toNat draws fp.2
  let mp := gp.sample pop mutations.toNat draws sp.2
  (pop
    ++ mp.1.map (fun ind => { fenotype := gp.Model.mutate ind.fenotype : IndividualClass F })
    ++ (List.range crossovers.toNat).map (fun i =>
        { fenotype := gp.Model.crossover (fp.1.getD i default).fenotype
            (sp.1.getD i default).fenotype : IndividualClass F }),
   mp.2)

/-- One iteration of the generation loop of `fit`: selection and reproduction,
evaluation of the extended population, then
`population = sorted(population)[:population_size]`. -/
def GeneticProgramClass.generation_step {F X Y P : Type} [Inhabited F]
    (gp : GeneticProgramClass F X Y P) (x : X) (y : Y) (draws : Nat → Nat)
    (mutations crossovers : Int) (st : List (IndividualClass F) × Nat) :
    Option (List (IndividualClass F) × Nat) :=
  let st2 := gp.reproduce draws mutations crossovers st
  (gp.evaluate_population x y st2.1).map
    (fun pe => ((iSort indLe pe).take gp.population_size, st2.2))

/-- `GeneticProgramClass.fit` (logging, prints and timing omitted): build and
evaluate the initial population, sort it, fix `mutations` and `crossovers`
for the run, iterate the generation loop over `range(1, generations)`, and
return the final population together with the darwin champion
`population[0].fenotype`.  `none` models a raised exception (`NameError` on a
non-SPEA2 multi-objective run, `IndexError` on an empty final population). -/
def GeneticProgramClass.fit {F X Y P : Type} [Inhabited F]
    (gp : GeneticProgramClass F X Y P) (x : X) (y : Y) (draws : Nat → Nat) :
    Option (List (IndividualClass F) × F) :=
  let pop0 := (gp.Model.generate_population gp.population_size).map
    (fun f => { fenotype := f : IndividualClass F })
  match gp.evaluate_population x y pop0 with
  | none => none
  | some pe =>
    let population := iSort indLe pe
    let mutations : Int := pyCeil ((gp.population_size : ℚ) * gp.mutation_ratio)
    let crossovers : Int := (gp.population_size : Int) - mutations
    match (List.range' 1 (gp.generations - 1).toNat).foldl
        (fun acc _ => acc.bind (gp.generation_step x y draws mutations crossovers))
        (some (population, 0)) with
    | none => none
    | some st =>
      match st.1 with
      | [] => none
      | ind :: _ => some (st.1, ind.fenotype)

/-- `GeneticProgramClass.predict`. -/
def GeneticProgramClass.predict {F X Y P : Type}
    (gp : GeneticProgramClass F X Y P) (darwin_champion : F) (x : X) : P :=
  gp.Model.evaluate darwin_champion x

/-! ### Bridging loops to sums and counts -/

theorem getD_map_range {α : Type} (h : Nat → α) {n j : Nat} (hj : j < n) (d : α) :
    ((List.range n).map h).getD j d = h j := by
  rw [List.getD_eq_getElem?_getD, List.getElem?_map, List.getElem?_range hj]
  rfl

theorem countP_range_eq_card_filter (p : Nat → Bool) (n : Nat) :
    (List.range n).countP p = ((Finset.range n).filter (fun j => p j = true)).card := by
  induction n with
  | zero => simp
  | succ n ih =>
    rw [List.range_succ, List.countP_append, Finset.range_succ, Finset.filter_insert]
    by_cases h : p n = true
    · rw [if_pos h, Finset.card_insert_of_not_mem (by simp), ih]
      simp [List.countP_cons, h, Nat.add_comm]
    · rw [if_neg h, ih]
      simp [List.countP_cons, h]

theorem foldl_filter_sum (p : Nat → Bool) (f : Nat → Int) (n : Nat) :
    (List.range n).foldl (fun acc j => if p j then acc + f j else acc) 0
      = ∑ j ∈ (Finset.range n).filter (fun j => p j = true), f j := by
  suffices h : ∀ (a : Int), (List.range n).foldl (fun acc j => if p j then acc + f j else acc) a
      = a + ∑ j ∈ (Finset.range n).filter (fun j => p j = true), f j by
    simpa using h 0
  induction n with
  | zero => simp
  | succ n ih =>
    intro a
    rw [List.range_succ, List.foldl_append, ih, Finset.range_succ, Finset.filter_insert]
    by_cases h : p n = true
    · rw [if_pos h, Finset.sum_insert (by simp)]
      simp only [List.foldl_cons, List.foldl_nil, if_pos h]
      ring
    · rw [if_neg h]
      simp only [List.foldl_cons, List.foldl_nil, if_neg h]

/-! ### Claim C2 -/

/-- C2: In multi-objective mode, for every (nonempty, so that Python's
`objective_values[0]` exists) matrix of objective values, `_spea2` assigns
each individual a strength equal to the number of individuals (itself
included) whose objective vector is component-wise ≤ its own in every
objective, minus one; and a raw fitness equal to the sum of the strengths of
every other individual whose objective vector is strictly greater than its
own in every objective. -/
theorem C2_spea2_strength_and_raw_fitness (objectives : Nat) (vals : List (List ℚ))
    (hobj : 1 ≤ objectives) (hne : vals ≠ []) :
    spea2_strengths objectives vals =
      (List.range (vals.getD 0 []).length).map (fun i =>
        (((Finset.range (vals.getD 0 []).length).filter
            (weakDomPred objectives vals i)).card : Int) - 1)
    ∧ spea2 objectives vals =
      (List.range (vals.getD 0 []).length).map (fun i =>
        ∑ j ∈ (Finset.range (vals.getD 0 []).length).filter
            (fun j => j ≠ i ∧ strictDomPred objectives vals i j),
          ((((Finset.range (vals.getD 0 []).length).filter
              (weakDomPred objectives vals j)).card : Int) - 1)) := by
  have hstr : ∀ i, ((List.range (vals.getD 0 []).length).countP
        (fun comp => spea2_dominated objectives vals i comp) : Int) - 1 =
      (((Finset.range (vals.getD 0 []).length).filter
          (weakDomPred objectives vals i)).card : Int) - 1 := by
    intro i
    rw [countP_range_eq_card_filter]
    have hfeq : (Finset.range (vals.getD 0 []).length).filter
          (fun j => spea2_dominated objectives vals i j = true)
        = (Finset.range (vals.getD 0 []).length).filter (weakDomPred objectives vals i) :=
      Finset.filter_congr (fun j _ => by rw [spea2_dominated_iff])
    rw [hfeq]
  constructor
  · exact List.map_congr_left (fun i _ => hstr i)
  · refine List.map_congr_left (fun i hi => ?_)
    rw [foldl_filter_sum]
    have hfe : (Finset.range (vals.getD 0 []).length).filter
          (fun j => spea2_dominates_me objectives vals i j = true)
        = (Finset.range (vals.getD 0 []).length).filter
          (fun j => j ≠ i ∧ strictDomPred objectives vals i j) := by
      refine Finset.filter_congr (fun j _ => ?_)
      rw [spea2_dominates_me_iff]
      constructor
      · intro h
        refine ⟨?_, h⟩
        rintro rfl
        exact absurd (h 0 hobj) (lt_irrefl _)
      · exact fun h => h.2
    rw [hfe]
    refine Finset.sum_congr rfl (fun j hj => ?_)
    have hjn : j < (vals.getD 0 []).length := Finset.mem_range.1 (Finset.mem_filter.1 hj).1
    rw [spea2_strengths, getD_map_range _ hjn]
    exact hstr j

/-- C2 witness: a concrete two-objective three-individual matrix. -/
theorem C2_witness :
    spea2_strengths 2 [[1, 2, 3], [3, 1, 2]] =
      (List.range 3).map (fun i =>
        (((Finset.range 3).filter (weakDomPred 2 [[1, 2, 3], [3, 1, 2]] i)).card : Int) - 1)
    ∧ spea2 2 [[1, 2, 3], [3, 1, 2]] =
      (List.range 3).map (fun i =>
        ∑ j ∈ (Finset.range 3).filter
            (fun j => j ≠ i ∧ strictDomPred 2 [[1, 2, 3], [3, 1, 2]] i j),
          ((((Finset.range 3).filter (weakDomPred 2 [[1, 2, 3], [3, 1, 2]] j)).card : Int) - 1)) :=
  C2_spea2_strength_and_raw_fitness 2 [[1, 2, 3], [3, 1, 2]] (by decide) (by decide)

/-! ### Claim C3 -/

/-- C3: an individual's raw fitness under `_spea2` is `0` exactly when no
other individual of the same population strictly dominates it. -/
theorem C3_raw_fitness_zero_iff_nondominated (objectives : Nat) (vals : List (List ℚ))
    (hobj : 1 ≤ objectives) (i : Nat) (hi : i < (vals.getD 0 []).length) :
    (spea2 objectives vals).getD i 0 = 0 ↔
      ¬ ∃ j, j < (vals.getD 0 []).length ∧ j ≠ i ∧ strictDomPred objectives vals i j := by
  set n := (vals.getD 0 []).length with hn
  have hval : (spea2 objectives vals).getD i 0 =
      ∑ j ∈ (Finset.range n).filter
        (fun j => spea2_dominates_me objectives vals i j = true),
        (spea2_strengths objectives vals).getD j 0 := by
    rw [spea2, getD_map_range _ hi, foldl_filter_sum]
  have hstrength : ∀ j, j < n →
      (spea2_strengths objectives vals).getD j 0 =
      (((Finset.range n).filter (fun c => spea2_dominated objectives vals j c = true)).card : Int) - 1 := by
    intro j hj
    rw [spea2_strengths, getD_map_range _ hj, countP_range_eq_card_filter]
  have hself : ∀ j, j < n → spea2_dominated objectives vals j j = true := by
    intro j _
    rw [spea2_dominated_iff]
    exact fun o _ => le_refl _
  have hnonneg : ∀ j ∈ (Finset.range n).filter
      (fun j => spea2_dominates_me objectives vals i j = true),
      (0 : Int) ≤ (spea2_strengths objectives vals).getD j 0 := by
    intro j hj
    have hjn : j < n := Finset.mem_range.1 (Finset.mem_filter.1 hj).1
    rw [hstrength j hjn]
    have hpos : 0 < ((Finset.range n).filter
        (fun c => spea2_dominated objectives vals j c = true)).card :=
      Finset.card_pos.2 ⟨j, Finset.mem_filter.2 ⟨Finset.mem_range.2 hjn, hself j hjn⟩⟩
    omega
  have hdom_ge : ∀ j ∈ (Finset.range n).filter
      (fun j => spea2_dominates_me objectives vals i j = true),
      (1 : Int) ≤ (spea2_strengths objectives vals).getD j 0 := by
    intro j hj
    have hjn : j < n := Finset.mem_range.1 (Finset.mem_filter.1 hj).1
    have hdom : strictDomPred objectives vals i j :=
      (spea2_dominates_me_iff _ _ _ _).1 (Finset.mem_filter.1 hj).2
    have hne : j ≠ i := by
      rintro rfl
      exact absurd (hdom 0 hobj) (lt_irrefl _)
    have hwi : spea2_dominated objectives vals j i = true := by
      rw [spea2_dominated_iff]
      exact fun o ho => (hdom o ho).le
    have h2 : 1 < ((Finset.range n).filter
        (fun c => spea2_dominated objectives vals j c = true)).card := by
      refine Finset.one_lt_card.2 ⟨j, ?_, i, ?_, hne⟩
      · exact Finset.mem_filter.2 ⟨Finset.mem_range.2 hjn, hself j hjn⟩
      · exact Finset.mem_filter.2 ⟨Finset.mem_range.2 hi, hwi⟩
    rw [hstrength j hjn]
    omega
  rw [hval]
  constructor
  · intro hsum
    rintro ⟨j, hjn, hjne, hdom⟩
    have hjmem : j ∈ (Finset.range n).filter
        (fun j => spea2_dominates_me objectives vals i j = true) :=
      Finset.mem_filter.2 ⟨Finset.mem_range.2 hjn, (spea2_dominates_me_iff _ _ _ _).2 hdom⟩
    have hz := (Finset.sum_eq_zero_iff_of_nonneg hnonneg).1 hsum j hjmem
    have := hdom_ge j hjmem
    omega
  · intro hno
    refine Finset.sum_eq_zero (fun j hj => ?_)
    exfalso
    have hjn : j < n := Finset.mem_range.1 (Finset.mem_filter.1 hj).1
    have hdom : strictDomPred objectives vals i j :=
      (spea2_dominates_me_iff _ _ _ _).1 (Finset.mem_filter.1 hj).2
    have hne2 : j ≠ i := by
      rintro rfl
      exact absurd (hdom 0 hobj) (lt_irrefl _)
    exact hno ⟨j, hjn, hne2, hdom⟩

/-- C3 witness: in `obj = [[0, 1], [0, 1]]`, individual 0 is strictly
dominated by individual 1, and its raw fitness is indeed nonzero. -/
theorem C3_witness :
    ((spea2 2 [[0, 1], [0, 1]]).getD 0 0 = 0 ↔
      ¬ ∃ j, j < 2 ∧ j ≠ 0 ∧ strictDomPred 2 [[0, 1], [0, 1]] 0 j) :=
  C3_raw_fitness_zero_iff_nondominated 2 [[0, 1], [0, 1]] (by decide) 0 (by decide)

/-! ### Claim C9 -/

/-- A concrete trivial Model used for the closed instantiations below: natural
number fenotypes, lookup-table evaluation. -/
def trivialModel : ModelClass Nat Nat ℚ :=
  { generate_population := fun n => List.range n
    mutate := fun f => f + 1
    crossover := fun a b => a + b
    evaluate := fun f _x => ([0, 1, 2, 3, 4, 5, 6, 7] : List ℚ).getD f 9 }

/-- C9 counterexample: `__init__` performs no validation whatsoever.  A
configuration with `mutation_ratio = 5` (outside `[0,1]`), `tournament_size =
0` (below 1) and `generations = -7` is accepted silently: construction
succeeds (in the embedding, `GeneticProgramClass.init` is a total function —
the Python body contains no `raise` and no check) and the invalid values are
stored unchanged, where the claim says construction is rejected with a
configuration error. -/
theorem C9_counterexample :
    (GeneticProgramClass.init 0 (-7) trivialModel [fun (y : Nat) p => p]
        "SPEA2" "tournament" 5 0).mutation_ratio = 5
    ∧ (GeneticProgramClass.init 0 (-7) trivialModel [fun (y : Nat) p => p]
        "SPEA2" "tournament" 5 0).tournament_size = 0
    ∧ (GeneticProgramClass.init 0 (-7) trivialModel [fun (y : Nat) p => p]
        "SPEA2" "tournament" 5 0).generations = -7
    ∧ (GeneticProgramClass.init 0 (-7) trivialModel [fun (y : Nat) p => p]
        "SPEA2" "tournament" 5 0).population_size = 0 :=
  ⟨rfl, rfl, rfl, rfl⟩

/-- C9 amended: construction validates nothing.  `__init__` stores every
configuration argument exactly as given (and derives `objectives` as the
number of objective functions); rejecting invalid values is left to the
caller. -/
theorem C9_init_stores_configuration {F X Y P : Type} (population_size : Nat)
    (generations : Int) (Model : ModelClass F X P)
    (objective_functions : List (Y → P → ℚ))
    (multiobjective_fitness sampling_method : String)
    (mutation_ratio : ℚ) (tournament_size : Nat) :
    (GeneticProgramClass.init population_size generations Model objective_functions
        multiobjective_fitness sampling_method mutation_ratio tournament_size).population_size
        = population_size
    ∧ (GeneticProgramClass.init population_size generations Model objective_functions
        multiobjective_fitness sampling_method mutation_ratio tournament_size).generations
        = generations
    ∧ (GeneticProgramClass.init population_size generations Model objective_functions
        multiobjective_fitness sampling_method mutation_ratio tournament_size).mutation_ratio
        = mutation_ratio
    ∧ (GeneticProgramClass.init population_size generations Model objective_functions
        multiobjective_fitness sampling_method mutation_ratio tournament_size).tournament_size
        = tournament_size
    ∧ (GeneticProgramClass.init population_size generations Model objective_functions
        multiobjective_fitness sampling_method mutation_ratio tournament_size).objectives
        = objective_functions.length :=
  ⟨rfl, rfl, rfl, rfl, rfl⟩

/-! ### Claim C10 -/

/-- C10 counterexample: two individuals whose evaluation lists have different
lengths (`[1.0]` against `[1.0, 2.0]`) but compare equal — `__eq__` iterates
over `self.evaluation`'s indices only and never compares lengths, so it
returns `True` here, where the claim says it must return `False`. -/
theorem C10_counterexample :
    IndividualClass.eq
        { fenotype := (0 : Nat), evaluation := .vec [XR.fin 1] }
        { fenotype := (1 : Nat), evaluation := .vec [XR.fin 1, XR.fin 2] }
      = some true
    ∧ ([XR.fin 1].length ≠ [XR.fin 1, XR.fin 2].length) := by
  constructor
  · rfl
  · decide

/-- C10 amended: `__eq__` compares component-wise over the indices of the
FIRST individual's evaluation only.  It returns `True` iff `other.evaluation`
is at least as long and agrees with `self.evaluation` on those indices (so a
strict initial segment compares equal — length equality is NOT required); and
it raises `IndexError` (the `none` result) iff `other.evaluation` is strictly
shorter and agrees on all of its own indices. -/
theorem C10_eq_scans_self_indices_only (xs ys : List XR) :
    (pyEqList xs ys = some true ↔
      (xs.length ≤ ys.length ∧
        ∀ i < xs.length, XR.eqB (xs.getD i XR.nan) (ys.getD i XR.nan) = true))
    ∧ (pyEqList xs ys = none ↔
      (ys.length < xs.length ∧
        ∀ i < ys.length, XR.eqB (xs.getD i XR.nan) (ys.getD i XR.nan) = true)) := by
  induction xs generalizing ys with
  | nil =>
    cases ys <;> simp [pyEqList]
  | cons x xs ih =>
    cases ys with
    | nil =>
      constructor
      · simp [pyEqList]
      · simp only [pyEqList, List.length_nil, List.length_cons, true_iff]
        exact ⟨Nat.succ_pos _, fun i hi => absurd hi (Nat.not_lt_zero i)⟩
    | cons y ys =>
      rw [pyEqList]
      by_cases hxy : XR.eqB x y = true
      · rw [if_pos hxy]
        constructor
        · rw [(ih ys).1]
          constructor
          · rintro ⟨hlen, hall⟩
            refine ⟨by simpa using hlen, fun i hi => ?_⟩
            cases i with
            | zero => simpa using hxy
            | succ i =>
              simp only [List.getD_cons_succ]
              exact hall i (by simpa using hi)
          · rintro ⟨hlen, hall⟩
            refine ⟨by simpa using hlen, fun i hi => ?_⟩
            have := hall (i + 1) (by simpa using hi)
            simpa using this
        · rw [(ih ys).2]
          constructor
          · rintro ⟨hlen, hall⟩
            refine ⟨by simpa using hlen, fun i hi => ?_⟩
            cases i with
            | zero => simpa using hxy
            | succ i =>
              simp only [List.getD_cons_succ]
              exact hall i (by simpa using hi)
          · rintro ⟨hlen, hall⟩
            refine ⟨by simpa using hlen, fun i hi => ?_⟩
            have := hall (i + 1) (by simpa using hi)
            simpa using this
      · rw [if_neg hxy]
        constructor
        · simp only [Option.some.injEq, Bool.false_eq_true, false_iff, not_and, not_forall]
          intro _
          exact ⟨0, by simp, by simpa using hxy⟩
        · simp only [reduceCtorEq, false_iff, not_and, not_forall]
          intro _
          exact ⟨0, by simp, by simpa using hxy⟩

/-! ### Claim C8 -/

theorem foldl_append_one {α : Type} (g : Nat → α) (n : Nat) :
    ∀ (acc : List α) (c : Nat),
      (List.range n).foldl (fun (st : List α × Nat) _ => (st.1 ++ [g st.2], st.2 + 1)) (acc, c)
        = (acc ++ (List.range n).map (fun j => g (c + j)), c + n) := by
  induction n with
  | zero => intro acc c; simp
  | succ n ih =>
    intro acc c
    rw [List.range_succ, List.foldl_append, ih acc c, List.foldl_cons, List.foldl_nil,
      List.map_append, List.map_cons, List.map_nil, List.append_assoc]
    simp [Nat.add_assoc]

/-- C8: with `tournament_size = 1`, tournament selection consumes exactly the
same draws as plain `rd.choices(population, k=amount)` (the `else` branch of
`fit`'s dispatch) and returns the identical sequence of `amount` individuals —
a singleton tournament's winner is its only competitor.  As a function of the
random outcomes the two strategies are therefore the same map, so they induce
the same distribution. -/
theorem C8_tournament_size_one_is_uniform {F X Y P : Type} [Inhabited F]
    (gp : GeneticProgramClass F X Y P) (pop : List (IndividualClass F))
    (amount : Nat) (draws : Nat → Nat) (ctr : Nat)
    (hts : gp.tournament_size = 1) :
    gp.tournament_selection pop amount draws ctr = choices pop amount draws ctr := by
  have hbody : (fun (st : List (IndividualClass F) × Nat) (_ : Nat) =>
        let c := choices pop gp.tournament_size draws st.2
        (st.1 ++ [(iSort indLe c.1).headD default], c.2))
      = (fun st _ =>
        (st.1 ++ [pop.getD (draws st.2 % pop.length) default], st.2 + 1)) := by
    funext st j
    simp only [hts, choices, List.range_succ, List.range_zero, List.nil_append,
      List.map_cons, List.map_nil, iSort, oInsert, List.headD_cons, Nat.add_zero]
  rw [GeneticProgramClass.tournament_selection, hbody,
    foldl_append_one (fun c => pop.getD (draws c % pop.length) default) amount [] ctr,
    List.nil_append, choices]

/-- C8 witness: a concrete population of two evaluated individuals, two
selections, identity draw oracle. -/
theorem C8_witness :
    (GeneticProgramClass.init 2 1 trivialModel [fun (y : Nat) p => p]
        "SPEA2" "tournament" 0 1).tournament_selection
      [{ fenotype := 4, evaluation := .scalar (XR.fin 0) },
       { fenotype := 5, evaluation := .scalar (XR.fin 1) }] 2 (fun n => n + 1) 0
    = choices
      [{ fenotype := 4, evaluation := .scalar (XR.fin 0) },
       { fenotype := 5, evaluation := .scalar (XR.fin 1) }] 2 (fun n => n + 1) 0 :=
  C8_tournament_size_one_is_uniform _ _ 2 _ 0 rfl

/-! ### Claim C6 -/

theorem getElem?_zipWith_range {α β : Type} (f : Nat → α → β) (l : List α) (i : Nat) :
    (List.zipWith f (List.range l.length) l)[i]? = l[i]?.map (f i) := by
  rw [List.getElem?_zipWith]
  by_cases hi : i < l.length
  · rw [List.getElem?_range hi, List.getElem?_eq_getElem hi]
    rfl
  · have h1 : (List.range l.length)[i]? = none := by
      rw [List.getElem?_eq_none_iff]
      simpa using Nat.le_of_not_lt hi
    have h2 : l[i]? = none := by
      rw [List.getElem?_eq_none_iff]
      exact Nat.le_of_not_lt hi
    rw [h1, h2]
    rfl

/-- C6: objective values are computed at most once.  If the individual at
index `i` already has `objective_values = some v`, then (first conjunct) after
any successful `_evaluate_population` pass the individual at index `i` still
has `objective_values = some v`; and (second conjunct) the memoization loop
returns that individual completely unchanged for EVERY engine configuration
and training data — in particular for arbitrary `Model.evaluate` and arbitrary
objective functions — which is the observational statement that neither
`Model.evaluate` nor any objective function is invoked for it. -/
theorem C6_objective_values_memoized {F X Y P : Type}
    (gp : GeneticProgramClass F X Y P) (x : X) (y : Y)
    (pop pe : List (IndividualClass F)) (i : Nat) (ind : IndividualClass F)
    (v : List ℚ)
    (hget : pop[i]? = some ind) (hv : ind.objective_values = some v)
    (hev : gp.evaluate_population x y pop = some pe) :
    (∃ ind2, pe[i]? = some ind2 ∧ ind2.objective_values = some v)
    ∧ ∀ (gp2 : GeneticProgramClass F X Y P) (x2 : X) (y2 : Y),
        (gp2.fill_objective_values x2 y2 pop)[i]? = some ind := by
  have hfill : ∀ (gp2 : GeneticProgramClass F X Y P) (x2 : X) (y2 : Y),
      (gp2.fill_objective_values x2 y2 pop)[i]? = some ind := by
    intro gp2 x2 y2
    rw [GeneticProgramClass.fill_objective_values, List.getElem?_map, hget]
    simp [hv]
  have hh : pe[i]?.map (fun j => j.objective_values) = some (some v) := by
    rw [GeneticProgramClass.evaluate_population] at hev
    by_cases h1 : gp.objectives = 1
    · rw [if_pos h1] at hev
      obtain rfl := (Option.some.inj hev).symm
      rw [List.getElem?_map, hfill gp x y]
      simpa using hv
    · rw [if_neg h1] at hev
      by_cases h2 : gp.multiobjective_fitness = "SPEA2"
      · rw [if_pos h2] at hev
        obtain rfl := (Option.some.inj hev).symm
        rw [getElem?_zipWith_range, getElem?_zipWith_range, hfill gp x y]
        simpa using hv
      · rw [if_neg h2] at hev
        exact absurd hev (by simp)
  cases hind : pe[i]? with
  | none => rw [hind] at hh; cases hh
  | some z =>
    rw [hind] at hh
    exact ⟨⟨z, rfl, Option.some.inj hh⟩, hfill⟩

/-- A single-individual population with memoized objective values, and the
engine/evaluated pair for the C6 instantiation. -/
def popMemoW : List (IndividualClass Nat) :=
  [{ fenotype := 7, evaluation := .vec [], objective_values := some [3] }]

def peMemoW : List (IndividualClass Nat) :=
  [{ fenotype := 7, evaluation := .scalar (XR.fin 3), objective_values := some [3] }]

def gpMemoW : GeneticProgramClass Nat Nat Nat ℚ :=
  GeneticProgramClass.init 1 1 trivialModel [fun (_y : Nat) p => p]
    "SPEA2" "tournament" 1 2

/-- C6 witness: the memoized individual of `popMemoW` survives an
`_evaluate_population` pass with its objective values untouched. -/
theorem C6_witness :
    (∃ ind2, peMemoW[0]? = some ind2 ∧ ind2.objective_values = some [3])
    ∧ ∀ (gp2 : GeneticProgramClass Nat Nat Nat ℚ) (x2 : Nat) (y2 : Nat),
        (gp2.fill_objective_values x2 y2 popMemoW)[0]?
          = some { fenotype := 7, evaluation := .vec [], objective_values := some [3] } :=
  C6_objective_values_memoized gpMemoW 0 0 popMemoW peMemoW 0
    { fenotype := 7, evaluation := .vec [], objective_values := some [3] }
    [3] rfl rfl rfl

/-! ### Claim C5 -/

theorem evaluate_population_length {F X Y P : Type}
    (gp : GeneticProgramClass F X Y P) (x : X) (y : Y)
    {pop pe : List (IndividualClass F)}
    (hev : gp.evaluate_population x y pop = some pe) : pe.length = pop.length := by
  rw [GeneticProgramClass.evaluate_population] at hev
  by_cases h1 : gp.objectives = 1
  · rw [if_pos h1] at hev
    obtain rfl := (Option.some.inj hev).symm
    simp [GeneticProgramClass.fill_objective_values]
  · rw [if_neg h1] at hev
    by_cases h2 : gp.multiobjective_fitness = "SPEA2"
    · rw [if_pos h2] at hev
      obtain rfl := (Option.some.inj hev).symm
      simp [GeneticProgramClass.fill_objective_values]
    · rw [if_neg h2] at hev
      exact absurd hev (by simp)

theorem choices_length {α : Type} [Inhabited α] (pop : List α) (k : Nat)
    (draws : Nat → Nat) (ctr : Nat) : (choices pop k draws ctr).1.length = k := by
  simp [choices]

theorem tournament_selection_length {F X Y P : Type} [Inhabited F]
    (gp : GeneticProgramClass F X Y P) (pop : List (IndividualClass F))
    (amount : Nat) (draws : Nat → Nat) (ctr : Nat) :
    (gp.tournament_selection pop amount draws ctr).1.length = amount := by
  rw [GeneticProgramClass.tournament_selection]
  suffices h : ∀ (n : Nat) (acc : List (IndividualClass F)) (c : Nat),
      ((List.range n).foldl (fun st _ =>
        let cc := choices pop gp.tournament_size draws st.2
        (st.1 ++ [(iSort indLe cc.1).headD default], cc.2)) (acc, c)).1.length
        = acc.length + n by
    simpa using h amount [] ctr
  intro n
  induction n with
  | zero => intro acc c; simp
  | succ n ih =>
    intro acc c
    rw [List.range_succ, List.foldl_append, List.foldl_cons, List.foldl_nil]
    have := ih acc c
    simp_all
    omega

theorem sample_length {F X Y P : Type} [Inhabited F]
    (gp : GeneticProgramClass F X Y P) (pop : List (IndividualClass F))
    (amount : Nat) (draws : Nat → Nat) (ctr : Nat) :
    (gp.sample pop amount draws ctr).1.length = amount := by
  rw [GeneticProgramClass.sample]
  by_cases h1 : gp.sampling_method = "tournament"
  · rw [if_pos h1]
    exact tournament_selection_length gp pop amount draws ctr
  · rw [if_neg h1]
    by_cases h2 : gp.sampling_method = "weighted_random"
    · rw [if_pos h2]
      exact choices_length _ amount draws ctr
    · rw [if_neg h2]
      exact choices_length _ amount draws ctr

theorem reproduce_length {F X Y P : Type} [Inhabited F]
    (gp : GeneticProgramClass F X Y P) (draws : Nat → Nat)
    (mutations crossovers : Int) (st : List (IndividualClass F) × Nat) :
    (gp.reproduce draws mutations crossovers st).1.length
      = st.1.length + mutations.toNat + crossovers.toNat := by
  rw [GeneticProgramClass.reproduce]
  simp [sample_length, Nat.add_assoc]

theorem generation_step_length {F X Y P : Type} [Inhabited F]
    (gp : GeneticProgramClass F X Y P) (x : X) (y : Y) (draws : Nat → Nat)
    (mutations crossovers : Int) {st st2 : List (IndividualClass F) × Nat}
    (hlen : st.1.length = gp.population_size)
    (hstep : gp.generation_step x y draws mutations crossovers st = some st2) :
    st2.1.length = gp.population_size := by
  rw [GeneticProgramClass.generation_step] at hstep
  cases hev : gp.evaluate_population x y (gp.reproduce draws mutations crossovers st).1 with
  | none => rw [hev] at hstep; cases hstep
  | some pe =>
    rw [hev] at hstep
    obtain rfl := (Option.some.inj hstep).symm
    have h1 : pe.length = gp.population_size + mutations.toNat + crossovers.toNat := by
      rw [evaluate_population_length gp x y hev, reproduce_length, hlen]
    simp only [List.length_take, iSort_length, h1]
    omega

theorem foldl_bind_preserve {σ α : Type} (f : σ → Option σ) (Q : σ → Prop)
    (hf : ∀ s s2, Q s → f s = some s2 → Q s2) :
    ∀ (l : List α) (init : Option σ),
      (∀ s, init = some s → Q s) →
      ∀ s2, l.foldl (fun acc _ => acc.bind f) init = some s2 → Q s2 := by
  intro l
  induction l with
  | nil => intro init hinit s2 h; exact hinit s2 h
  | cons a t ih =>
    intro init hinit s2 h
    rw [List.foldl_cons] at h
    refine ih (init.bind f) ?_ s2 h
    intro s hs
    rcases Option.bind_eq_some.1 hs with ⟨s0, hs0, hfs⟩
    exact hf s0 s (hinit s0 hs0) hfs

/-- C5: assuming `Model.generate_population(n)` returns exactly `n` fenotypes
and `mutation_ratio ∈ [0,1]`, the population has exactly `population_size`
entries at every generation boundary: (1) after the initial evaluation and
sort; (2) after each generation's sort-and-truncate, given it held before the
generation; (3) in between, reproduction grows it to exactly
`population_size + mutations + crossovers` entries; and (4) the final
population returned by `fit` has exactly `population_size` entries. -/
theorem C5_population_size_invariant {F X Y P : Type} [Inhabited F]
    (gp : GeneticProgramClass F X Y P) (x : X) (y : Y) (draws : Nat → Nat)
    (hgen : (gp.Model.generate_population gp.population_size).length = gp.population_size)
    (hr0 : 0 ≤ gp.mutation_ratio) (hr1 : gp.mutation_ratio ≤ 1) :
    (∀ pe, gp.evaluate_population x y
        ((gp.Model.generate_population gp.population_size).map
          (fun f => { fenotype := f })) = some pe →
      (iSort indLe pe).length = gp.population_size)
    ∧ (∀ st st2, st.1.length = gp.population_size →
        gp.generation_step x y draws (pyCeil ((gp.population_size : ℚ) * gp.mutation_ratio))
          ((gp.population_size : Int) - pyCeil ((gp.population_size : ℚ) * gp.mutation_ratio)) st
          = some st2 →
        st2.1.length = gp.population_size)
    ∧ (∀ st, st.1.length = gp.population_size →
        ((gp.reproduce draws (pyCeil ((gp.population_size : ℚ) * gp.mutation_ratio))
            ((gp.population_size : Int)
              - pyCeil ((gp.population_size : ℚ) * gp.mutation_ratio)) st).1.length : Int)
          = (gp.population_size : Int)
            + pyCeil ((gp.population_size : ℚ) * gp.mutation_ratio)
            + ((gp.population_size : Int)
              - pyCeil ((gp.population_size : ℚ) * gp.mutation_ratio)))
    ∧ (∀ pop champ, gp.fit x y draws = some (pop, champ) →
        pop.length = gp.population_size) := by
  have hm0 : 0 ≤ pyCeil ((gp.population_size : ℚ) * gp.mutation_ratio) := by
    rw [pyCeil_eq]
    exact Int.ceil_nonneg (mul_nonneg (Nat.cast_nonneg _) hr0)
  have hm1 : pyCeil ((gp.population_size : ℚ) * gp.mutation_ratio)
      ≤ (gp.population_size : Int) := by
    rw [pyCeil_eq, Int.ceil_le]
    push_cast
    exact mul_le_of_le_one_right (Nat.cast_nonneg _) hr1
  have hinit : ∀ pe, gp.evaluate_population x y
      ((gp.Model.generate_population gp.population_size).map
        (fun f => { fenotype := f })) = some pe →
      (iSort indLe pe).length = gp.population_size := by
    intro pe hev
    rw [iSort_length, evaluate_population_length gp x y hev, List.length_map, hgen]
  refine ⟨hinit, ?_, ?_, ?_⟩
  · intro st st2 hlen hstep
    exact generation_step_length gp x y draws _ _ hlen hstep
  · intro st hlen
    rw [reproduce_length, hlen]
    push_cast [Int.toNat_of_nonneg hm0, Int.toNat_of_nonneg (by omega :
      0 ≤ (gp.population_size : Int) - pyCeil ((gp.population_size : ℚ) * gp.mutation_ratio))]
    ring
  · intro pop champ hfit
    rw [GeneticProgramClass.fit] at hfit
    cases hev : gp.evaluate_population x y
        ((gp.Model.generate_population gp.population_size).map
          (fun f => { fenotype := f })) with
    | none => rw [hev] at hfit; cases hfit
    | some pe =>
      rw [hev] at hfit
      dsimp only at hfit
      cases hfold : (List.range' 1 (gp.generations - 1).toNat).foldl
          (fun acc _ => acc.bind (gp.generation_step x y draws
            (pyCeil ((gp.population_size : ℚ) * gp.mutation_ratio))
            ((gp.population_size : Int)
              - pyCeil ((gp.population_size : ℚ) * gp.mutation_ratio))))
          (some (iSort indLe pe, 0)) with
      | none => rw [hfold] at hfit; cases hfit
      | some st =>
        rw [hfold] at hfit
        dsimp only at hfit
        have hQ : st.1.length = gp.population_size := by
          refine foldl_bind_preserve _ (fun s => s.1.length = gp.population_size)
            (fun s s2 hQ hstep => generation_step_length gp x y draws _ _ hQ hstep)
            (List.range' 1 (gp.generations - 1).toNat) (some (iSort indLe pe, 0))
            (fun s hs => ?_) st hfold
          obtain rfl := Option.some.inj hs
          exact hinit pe hev
        cases hst : st.1 with
        | nil => rw [hst] at hfit; cases hfit
        | cons ind tl =>
          rw [hst] at hfit
          obtain ⟨rfl, rfl⟩ : ind :: tl = pop ∧ ind.fenotype = champ := by
            have := Option.some.inj hfit
            exact ⟨congrArg Prod.fst this, congrArg Prod.snd this⟩
          rw [← hst]
          exact hQ

/-- A concrete single-objective engine over `trivialModel`: population 3, one
generation, identity objective. -/
def gpSingleW : GeneticProgramClass Nat Nat Nat ℚ :=
  GeneticProgramClass.init 3 1 trivialModel [fun (_y : Nat) p => p]
    "SPEA2" "tournament" 1 2

/-- C5 witness: the invariant instantiated on the concrete engine. -/
theorem C5_witness :
    (∀ pe, gpSingleW.evaluate_population 0 0
        ((gpSingleW.Model.generate_population gpSingleW.population_size).map
          (fun f => { fenotype := f })) = some pe →
      (iSort indLe pe).length = gpSingleW.population_size)
    ∧ (∀ st st2, st.1.length = gpSingleW.population_size →
        gpSingleW.generation_step 0 0 (fun n => n)
          (pyCeil ((gpSingleW.population_size : ℚ) * gpSingleW.mutation_ratio))
          ((gpSingleW.population_size : Int)
            - pyCeil ((gpSingleW.population_size : ℚ) * gpSingleW.mutation_ratio)) st
          = some st2 →
        st2.1.length = gpSingleW.population_size)
    ∧ (∀ st, st.1.length = gpSingleW.population_size →
        ((gpSingleW.reproduce (fun n => n)
            (pyCeil ((gpSingleW.population_size : ℚ) * gpSingleW.mutation_ratio))
            ((gpSingleW.population_size : Int)
              - pyCeil ((gpSingleW.population_size : ℚ) * gpSingleW.mutation_ratio)) st).1.length : Int)
          = (gpSingleW.population_size : Int)
            + pyCeil ((gpSingleW.population_size : ℚ) * gpSingleW.mutation_ratio)
            + ((gpSingleW.population_size : Int)
              - pyCeil ((gpSingleW.population_size : ℚ) * gpSingleW.mutation_ratio)))
    ∧ (∀ pop champ, gpSingleW.fit 0 0 (fun n => n) = some (pop, champ) →
        pop.length = gpSingleW.population_size) :=
  C5_population_size_invariant gpSingleW 0 0 (fun n => n) (by decide) (by decide) (by decide)

/-! ### Claim C7 -/

theorem foldl_range'_eq_iterate {β : Type} (g : β → β) :
    ∀ (n start : Nat) (b : β),
      (List.range' start n).foldl (fun acc _ => g acc) b = g^[n] b := by
  intro n
  induction n with
  | zero => intro start b; simp
  | succ n ih =>
    intro start b
    rw [List.range'_succ, List.foldl_cons, ih (start + 1) (g b),
      Function.iterate_succ_apply]

/-- C7: `fit`'s loop runs over `range(1, generations)`, so the generation step
is applied exactly `(generations - 1).toNat` times (first conjunct: `fit` in
iterate form); for `generations ≤ 1` no generation step — hence no offspring,
no `Model.mutate`, no `Model.crossover` — is ever executed, and `fit` returns
the sorted initially-evaluated population with its head's fenotype as champion
(second conjunct); which is the best (lexicographically minimal) individual of
the initial evaluated population whenever its evaluations are well-behaved
(third conjunct). -/
theorem C7_loop_runs_generations_minus_one_times {F X Y P : Type} [Inhabited F]
    (gp : GeneticProgramClass F X Y P) (x : X) (y : Y) (draws : Nat → Nat) :
    (gp.fit x y draws =
      match gp.evaluate_population x y
          ((gp.Model.generate_population gp.population_size).map
            (fun f => { fenotype := f })) with
      | none => none
      | some pe =>
        match (fun acc => acc.bind (gp.generation_step x y draws
              (pyCeil ((gp.population_size : ℚ) * gp.mutation_ratio))
              ((gp.population_size : Int)
                - pyCeil ((gp.population_size : ℚ) * gp.mutation_ratio))))^[(gp.generations - 1).toNat]
            (some (iSort indLe pe, 0)) with
        | none => none
        | some st =>
          match st.1 with
          | [] => none
          | ind :: _ => some (st.1, ind.fenotype))
    ∧ (gp.generations ≤ 1 →
      gp.fit x y draws =
        match gp.evaluate_population x y
            ((gp.Model.generate_population gp.population_size).map
              (fun f => { fenotype := f })) with
        | none => none
        | some pe =>
          match iSort indLe pe with
          | [] => none
          | ind :: _ => some (iSort indLe pe, ind.fenotype))
    ∧ (gp.generations ≤ 1 → ∀ pop champ, gp.fit x y draws = some (pop, champ) →
        ∀ pe, gp.evaluate_population x y
            ((gp.Model.generate_population gp.population_size).map
              (fun f => { fenotype := f })) = some pe →
        EvalsOK pe →
        champ = (pop.headD default).fenotype ∧
        ∀ ind ∈ pop, ((pop.headD default).evaluation).lexLe ind.evaluation = true) := by
  have hconj2 : gp.generations ≤ 1 →
      gp.fit x y draws =
        match gp.evaluate_population x y
            ((gp.Model.generate_population gp.population_size).map
              (fun f => { fenotype := f })) with
        | none => none
        | some pe =>
          match iSort indLe pe with
          | [] => none
          | ind :: _ => some (iSort indLe pe, ind.fenotype) := by
    intro hg
    have h0 : (gp.generations - 1).toNat = 0 := by omega
    rw [GeneticProgramClass.fit]
    cases hev : gp.evaluate_population x y
        ((gp.Model.generate_population gp.population_size).map
          (fun f => { fenotype := f })) with
    | none => rfl
    | some pe =>
      dsimp only
      rw [h0]
      rfl
  refine ⟨?_, hconj2, ?_⟩
  · rw [GeneticProgramClass.fit]
    cases hev : gp.evaluate_population x y
        ((gp.Model.generate_population gp.population_size).map
          (fun f => { fenotype := f })) with
    | none => rfl
    | some pe =>
      dsimp only
      rw [foldl_range'_eq_iterate]
  · intro hg pop champ hfit pe hev hok
    rw [hconj2 hg, hev] at hfit
    dsimp only at hfit
    have hoks : EvalsOK (iSort indLe pe) :=
      EvalsOK_of_mem_subset (fun a ha => (iSort_mem indLe pe a).1 ha) hok
    have hpw := iSort_pairwise_indLe pe hok
    cases hsp : iSort indLe pe with
    | nil => rw [hsp] at hfit; cases hfit
    | cons ind tl =>
      rw [hsp] at hfit
      obtain ⟨hpop, hch⟩ : ind :: tl = pop ∧ ind.fenotype = champ := by
        have := Option.some.inj hfit
        exact ⟨congrArg Prod.fst this, congrArg Prod.snd this⟩
      rw [hsp] at hoks hpw
      subst hpop
      subst hch
      refine ⟨rfl, ?_⟩
      exact pairwise_head_lexLe hoks hpw

/-- C7 witness: for `generations = 1` on the concrete engine, `fit` is exactly
the loop-free pipeline. -/
theorem C7_witness :
    gpSingleW.fit 0 0 (fun n => n) =
      match gpSingleW.evaluate_population 0 0
          ((gpSingleW.Model.generate_population gpSingleW.population_size).map
            (fun f => { fenotype := f })) with
      | none => none
      | some pe =>
        match iSort indLe pe with
        | [] => none
        | ind :: _ => some (iSort indLe pe, ind.fenotype) :=
  (C7_loop_runs_generations_minus_one_times gpSingleW 0 0 (fun n => n)).2.1 (by decide)

/-! ### Claim C1 -/

/-- In single-objective mode every successful evaluation pass produces bare
finite evaluations, which are trivially `nan`-free and shape-uniform. -/
theorem evalsOK_of_single_objective {F X Y P : Type}
    (gp : GeneticProgramClass F X Y P) (h1 : gp.objectives = 1) (x : X) (y : Y)
    (pop pe : List (IndividualClass F))
    (hev : gp.evaluate_population x y pop = some pe) : EvalsOK pe := by
  rw [GeneticProgramClass.evaluate_population, if_pos h1] at hev
  obtain rfl := (Option.some.inj hev).symm
  constructor
  · intro ind hi
    rcases List.mem_map.1 hi with ⟨j, _, rfl⟩
    simp [Evaluation.NanFree]
  · intro a ha b hb
    rcases List.mem_map.1 ha with ⟨ja, _, rfl⟩
    rcases List.mem_map.1 hb with ⟨jb, _, rfl⟩
    simp [Evaluation.sameShape]

/-- Any member of `zipWith f (range l.length) l` is `f i w` for some position
`i` holding `w`. -/
theorem mem_zipWith_range {α β : Type} (f : Nat → α → β) (l : List α) (c : β)
    (hc : c ∈ List.zipWith f (List.range l.length) l) :
    ∃ i w, l[i]? = some w ∧ c = f i w := by
  rcases List.mem_iff_getElem?.1 hc with ⟨i, hi⟩
  rw [getElem?_zipWith_range] at hi
  cases hw : l[i]? with
  | none => rw [hw] at hi; cases hi
  | some w =>
    rw [hw] at hi
    exact ⟨i, w, hw, (Option.some.inj hi).symm⟩

/-- Every successful `_evaluate_population` pass produces a shape-uniform
population: bare floats in single-objective mode, two-component lists
(`[spea2_value, inverted_crowding_distance]`) on the SPEA2 path — whatever
`nan`s those components may hold. -/
theorem evaluate_population_shape_uniform {F X Y P : Type}
    (gp : GeneticProgramClass F X Y P) (x : X) (y : Y)
    (pop pe : List (IndividualClass F))
    (hev : gp.evaluate_population x y pop = some pe) :
    ∀ a ∈ pe, ∀ b ∈ pe, a.evaluation.sameShape b.evaluation := by
  rw [GeneticProgramClass.evaluate_population] at hev
  by_cases h1 : gp.objectives = 1
  · rw [if_pos h1] at hev
    obtain rfl := (Option.some.inj hev).symm
    intro a ha b hb
    rcases List.mem_map.1 ha with ⟨ja, _, rfl⟩
    rcases List.mem_map.1 hb with ⟨jb, _, rfl⟩
    simp [Evaluation.sameShape]
  · rw [if_neg h1] at hev
    by_cases h2 : gp.multiobjective_fitness = "SPEA2"
    · rw [if_pos h2] at hev
      obtain rfl := (Option.some.inj hev).symm
      intro a ha b hb
      obtain ⟨i, w, hiw, rfl⟩ := mem_zipWith_range _ _ a ha
      obtain ⟨i2, w2, hiw2, rfl⟩ :=
        mem_zipWith_range _ _ w (List.mem_iff_getElem?.2 ⟨i, hiw⟩)
      obtain ⟨j, u, hju, rfl⟩ := mem_zipWith_range _ _ b hb
      obtain ⟨j2, u2, hju2, rfl⟩ :=
        mem_zipWith_range _ _ u (List.mem_iff_getElem?.2 ⟨j, hju⟩)
      simp [Evaluation.sameShape, Evaluation.append1]
    · rw [if_neg h2] at hev
      cases hev

/-- The prefix guarantee insertion sort gives even when some evaluations hold
`nan`: whenever `x` appears before `y` with only `nan`-free evaluations from
`x` to `y` inclusive, `y` does not compare strictly below `x`.  (An element
with a `nan` evaluation can absorb misplacements, but only from a position
between the two elements it misorders.) -/
def GoodSorted {F : Type} (l : List (IndividualClass F)) : Prop :=
  ∀ u x m y v, l = u ++ x :: (m ++ y :: v) →
    x.evaluation.NanFree → y.evaluation.NanFree →
    (∀ z ∈ m, z.evaluation.NanFree) →
    Evaluation.pyLt y.evaluation x.evaluation = false

/-- `oInsert` splits its input into the prefix it walked past (each element
strictly below `a`) and the suffix it stopped at (whose head is not). -/
theorem oInsert_split {α : Type} (le : α → α → Bool) (a : α) (s : List α) :
    ∃ s₁ s₂, s = s₁ ++ s₂ ∧ oInsert le a s = s₁ ++ a :: s₂ ∧
      (∀ b ∈ s₁, le a b = false) ∧ ∀ b, s₂.head? = some b → le a b = true := by
  induction s with
  | nil => exact ⟨[], [], rfl, rfl, by simp, by simp⟩
  | cons b t ih =>
    by_cases h : le a b = true
    · refine ⟨[], b :: t, rfl, by simp [oInsert, h], by simp, ?_⟩
      intro c hc
      rw [List.head?_cons] at hc
      obtain rfl := Option.some.inj hc
      exact h
    · obtain ⟨s₁, s₂, h1, h2, h3, h4⟩ := ih
      refine ⟨b :: s₁, s₂, by rw [List.cons_append, ← h1], ?_, ?_, h4⟩
      · rw [oInsert, if_neg h, h2, List.cons_append]
      · intro c hc
        rcases List.mem_cons.1 hc with rfl | hc
        · exact Bool.eq_false_iff.2 h
        · exact h3 c hc

/-- Inserting into a list with the prefix guarantee preserves it, provided
all shapes agree (`nan`-freeness is not assumed anywhere: a violating segment
through the new element contains it, hence certifies it `nan`-free). -/
theorem oInsert_goodSorted {F : Type} (a : IndividualClass F)
    (s : List (IndividualClass F)) (hg : GoodSorted s)
    (hus : ∀ b ∈ s, ∀ c ∈ s, b.evaluation.sameShape c.evaluation)
    (hash : ∀ b ∈ s, a.evaluation.sameShape b.evaluation) :
    GoodSorted (oInsert indLe a s) := by
  obtain ⟨s₁, s₂, hsplit, hins, h3, h4⟩ := oInsert_split indLe a s
  rw [hins]
  have hs1mem : ∀ b ∈ s₁, b ∈ s := by
    intro b hb; rw [hsplit]; exact List.mem_append_left _ hb
  have hs2mem : ∀ b ∈ s₂, b ∈ s := by
    intro b hb; rw [hsplit]; exact List.mem_append_right _ hb
  have hlt1 : ∀ b ∈ s₁, Evaluation.pyLt b.evaluation a.evaluation = true := by
    intro b hb
    have h := h3 b hb
    simpa [indLe] using h
  have hhd : ∀ b, s₂.head? = some b →
      Evaluation.pyLt b.evaluation a.evaluation = false := by
    intro b hb
    have h := h4 b hb
    simpa [indLe] using h
  have htail : ∀ m₂ y₂ v₂, s₂ = m₂ ++ y₂ :: v₂ →
      a.evaluation.NanFree → y₂.evaluation.NanFree →
      (∀ z ∈ m₂, z.evaluation.NanFree) →
      Evaluation.pyLt y₂.evaluation a.evaluation = false := by
    intro m₂ y₂ v₂ hs₂ hanan hy₂ hm₂
    cases m₂ with
    | nil =>
      apply hhd
      rw [hs₂]
      rfl
    | cons b₀ m₂2 =>
      have hb₀a : Evaluation.pyLt b₀.evaluation a.evaluation = false := by
        apply hhd
        rw [hs₂]
        rfl
      have hb₀mem : b₀ ∈ s₂ := by rw [hs₂]; simp
      have hy₂mem : y₂ ∈ s₂ := by rw [hs₂]; simp
      have hb₀nan : b₀.evaluation.NanFree := hm₂ b₀ (by simp)
      have hyb₀ : Evaluation.pyLt y₂.evaluation b₀.evaluation = false := by
        apply hg s₁ b₀ m₂2 y₂ v₂ ?_ hb₀nan hy₂ (fun z hz => hm₂ z (by simp [hz]))
        rw [hsplit, hs₂]
        simp
      have hab₀ : indLe a b₀ = true := by simp [indLe, hb₀a]
      have hb₀y : indLe b₀ y₂ = true := by simp [indLe, hyb₀]
      have hay : indLe a y₂ = true :=
        indLe_trans_ok hanan hb₀nan hy₂ (hash b₀ (hs2mem b₀ hb₀mem))
          (hus b₀ (hs2mem b₀ hb₀mem) y₂ (hs2mem y₂ hy₂mem)) hab₀ hb₀y
      simpa [indLe] using hay
  intro u x m y v hdec hx hy hm
  rcases List.append_eq_append_iff.1 hdec with ⟨e, he1, he2⟩ | ⟨e, he1, he2⟩
  · cases e with
    | nil =>
      rw [List.nil_append] at he2
      obtain ⟨rfl, hs₂⟩ := List.cons.inj he2
      exact htail m y v hs₂ hx hy hm
    | cons a2 e2 =>
      rw [List.cons_append] at he2
      obtain ⟨rfl, hs₂⟩ := List.cons.inj he2
      apply hg (s₁ ++ e2) x m y v ?_ hx hy hm
      rw [hsplit, hs₂]
      simp
  · cases e with
    | nil =>
      rw [List.nil_append] at he2
      obtain ⟨rfl, hs₂⟩ := List.cons.inj he2.symm
      exact htail m y v hs₂ hx hy hm
    | cons x2 e2 =>
      rw [List.cons_append] at he2
      obtain ⟨rfl, heq2⟩ := List.cons.inj he2
      have hxs₁ : x ∈ s₁ := by rw [he1]; simp
      have hxa : Evaluation.pyLt x.evaluation a.evaluation = true := hlt1 x hxs₁
      rcases List.append_eq_append_iff.1 heq2.symm with ⟨f, hf1, hf2⟩ | ⟨f, hf1, hf2⟩
      · cases f with
        | nil =>
          rw [List.nil_append] at hf2
          obtain ⟨rfl, hv⟩ := List.cons.inj hf2
          exact Evaluation.pyLt_asymm hxa
        | cons a2 f2 =>
          rw [List.cons_append] at hf2
          obtain ⟨rfl, hs₂⟩ := List.cons.inj hf2
          have hanan : a.evaluation.NanFree := hm a (by rw [hf1]; simp)
          have hya : Evaluation.pyLt y.evaluation a.evaluation = false :=
            htail f2 y v hs₂ hanan hy (fun z hz => hm z (by rw [hf1]; simp [hz]))
          by_contra hcon
          have hyx : Evaluation.pyLt y.evaluation x.evaluation = true := by
            revert hcon
            cases Evaluation.pyLt y.evaluation x.evaluation <;> simp
          have hsyx : y.evaluation.sameShape x.evaluation :=
            hus y (hs2mem y (by rw [hs₂]; simp)) x (hs1mem x hxs₁)
          have hsxa : x.evaluation.sameShape a.evaluation :=
            Evaluation.sameShape_symm (hash x (hs1mem x hxs₁))
          have hya2 : Evaluation.pyLt y.evaluation a.evaluation = true :=
            Evaluation.pyLtTrans hy hx hanan hsyx hsxa hyx hxa
          rw [hya2] at hya
          cases hya
      · cases f with
        | nil =>
          rw [List.nil_append] at hf2
          obtain ⟨rfl, hv⟩ := List.cons.inj hf2.symm
          exact Evaluation.pyLt_asymm hxa
        | cons y2 f2 =>
          rw [List.cons_append] at hf2
          obtain ⟨rfl, hv⟩ := List.cons.inj hf2
          apply hg u x m y (f2 ++ s₂) ?_ hx hy hm
          rw [hsplit, he1, hf1]
          simp

/-- Insertion sort (the model of every `sorted` call) yields the prefix
guarantee on any shape-uniform input, whatever `nan`s it contains. -/
theorem iSort_goodSorted {F : Type} (l : List (IndividualClass F))
    (hus : ∀ b ∈ l, ∀ c ∈ l, b.evaluation.sameShape c.evaluation) :
    GoodSorted (iSort indLe l) := by
  induction l with
  | nil =>
    intro u x m y v h _ _ _
    simp [iSort] at h
  | cons a t ih =>
    show GoodSorted (oInsert indLe a (iSort indLe t))
    refine oInsert_goodSorted a (iSort indLe t) ?_ ?_ ?_
    · exact ih (fun b hb c hc => hus b (by simp [hb]) c (by simp [hc]))
    · intro b hb c hc
      exact hus b (by simp [(iSort_mem indLe t b).1 hb])
        c (by simp [(iSort_mem indLe t c).1 hc])
    · intro b hb
      exact hus a (by simp) b (by simp [(iSort_mem indLe t b).1 hb])

/-- The prefix guarantee survives the truncation `[:population_size]`. -/
theorem goodSorted_take {F : Type} {l : List (IndividualClass F)}
    (hg : GoodSorted l) (n : Nat) : GoodSorted (l.take n) := by
  intro u x m y v h hx hy hm
  apply hg u x m y (v ++ l.drop n) ?_ hx hy hm
  conv_lhs => rw [← List.take_append_drop n l]
  rw [h]
  simp

/-- From the prefix guarantee: when every member of the population is
`nan`-free, the head's evaluation is lexicographically at most every
member's. -/
theorem goodSorted_head_min {F : Type} [Inhabited F]
    {l : List (IndividualClass F)} (hg : GoodSorted l)
    (hus : ∀ b ∈ l, ∀ c ∈ l, b.evaluation.sameShape c.evaluation)
    (hnan : ∀ ind ∈ l, ind.evaluation.NanFree) :
    ∀ ind ∈ l, ((l.headD default).evaluation).lexLe ind.evaluation = true := by
  cases l with
  | nil => intro ind h; cases h
  | cons h0 t =>
    intro ind hi
    have h0nan : h0.evaluation.NanFree := hnan h0 (by simp)
    have hindnan : ind.evaluation.NanFree := hnan ind hi
    have hsh : h0.evaluation.sameShape ind.evaluation := hus h0 (by simp) ind hi
    rcases List.mem_cons.1 hi with rfl | hi2
    · simp only [List.headD_cons]
      rw [Evaluation.lexLe_iff h0nan hindnan hsh]
      exact Or.inr rfl
    · obtain ⟨m, v, rfl⟩ := List.append_of_mem hi2
      have hlt : Evaluation.pyLt ind.evaluation h0.evaluation = false := by
        apply hg [] h0 m ind v rfl h0nan hindnan
        intro z hz
        exact hnan z (by simp [hz])
      simp only [List.headD_cons]
      rw [Evaluation.lexLe_iff h0nan hindnan hsh]
      rcases Evaluation.pyLt_connex h0nan hindnan hsh with h | h | h
      · exact Or.inl h
      · rw [h] at hlt
        cases hlt
      · exact Or.inr h

/-- C1 (amended): whenever `fit` completes, the final population is nonempty
and the returned darwin champion is the fenotype of `population[0]`;
moreover, whenever the final population's evaluations are `nan`-free (always
the case in single-objective mode, and checkable after the run in
multi-objective mode, where the inverted crowding distance can be `nan`),
`population[0]`'s evaluation is lexicographically ≤ the evaluation of every
individual of the final population (ascending order, lower better at each
component). -/
theorem C1_champion_and_final_minimality {F X Y P : Type} [Inhabited F]
    (gp : GeneticProgramClass F X Y P) (x : X) (y : Y) (draws : Nat → Nat)
    (pop : List (IndividualClass F)) (champ : F)
    (hfit : gp.fit x y draws = some (pop, champ)) :
    pop ≠ [] ∧ champ = (pop.headD default).fenotype ∧
    ((∀ ind ∈ pop, ind.evaluation.NanFree) →
      ∀ ind ∈ pop, ((pop.headD default).evaluation).lexLe ind.evaluation = true) := by
  rw [GeneticProgramClass.fit] at hfit
  cases hev : gp.evaluate_population x y
      ((gp.Model.generate_population gp.population_size).map
        (fun f => { fenotype := f })) with
  | none => rw [hev] at hfit; cases hfit
  | some pe =>
    rw [hev] at hfit
    dsimp only at hfit
    have hstep : ∀ s s2,
        (GoodSorted s.1 ∧
          ∀ b ∈ s.1, ∀ c ∈ s.1, b.evaluation.sameShape c.evaluation) →
        gp.generation_step x y draws
          (pyCeil ((gp.population_size : ℚ) * gp.mutation_ratio))
          ((gp.population_size : Int)
            - pyCeil ((gp.population_size : ℚ) * gp.mutation_ratio)) s = some s2 →
        (GoodSorted s2.1 ∧
          ∀ b ∈ s2.1, ∀ c ∈ s2.1, b.evaluation.sameShape c.evaluation) := by
      intro s s2 _ hstepEq
      rw [GeneticProgramClass.generation_step] at hstepEq
      cases hev2 : gp.evaluate_population x y
          (gp.reproduce draws
            (pyCeil ((gp.population_size : ℚ) * gp.mutation_ratio))
            ((gp.population_size : Int)
              - pyCeil ((gp.population_size : ℚ) * gp.mutation_ratio)) s).1 with
      | none => rw [hev2] at hstepEq; cases hstepEq
      | some pe2 =>
        rw [hev2] at hstepEq
        obtain rfl := (Option.some.inj hstepEq).symm
        have hsu2 := evaluate_population_shape_uniform gp x y _ pe2 hev2
        constructor
        · exact goodSorted_take (iSort_goodSorted pe2 hsu2) gp.population_size
        · intro b hb c hc
          exact hsu2 b ((iSort_mem indLe pe2 b).1 (List.take_subset _ _ hb))
            c ((iSort_mem indLe pe2 c).1 (List.take_subset _ _ hc))
    cases hfold : (List.range' 1 (gp.generations - 1).toNat).foldl
        (fun acc _ => acc.bind (gp.generation_step x y draws
          (pyCeil ((gp.population_size : ℚ) * gp.mutation_ratio))
          ((gp.population_size : Int)
            - pyCeil ((gp.population_size : ℚ) * gp.mutation_ratio))))
        (some (iSort indLe pe, 0)) with
    | none => rw [hfold] at hfit; cases hfit
    | some st =>
      rw [hfold] at hfit
      dsimp only at hfit
      have hsu0 := evaluate_population_shape_uniform gp x y _ pe hev
      have hQ : GoodSorted st.1 ∧
          ∀ b ∈ st.1, ∀ c ∈ st.1, b.evaluation.sameShape c.evaluation := by
        refine foldl_bind_preserve _
          (fun s => GoodSorted s.1 ∧
            ∀ b ∈ s.1, ∀ c ∈ s.1, b.evaluation.sameShape c.evaluation)
          hstep (List.range' 1 (gp.generations - 1).toNat)
          (some (iSort indLe pe, 0)) (fun s hs => ?_) st hfold
        obtain rfl := Option.some.inj hs
        refine ⟨iSort_goodSorted pe hsu0, ?_⟩
        intro b hb c hc
        exact hsu0 b ((iSort_mem indLe pe b).1 hb) c ((iSort_mem indLe pe c).1 hc)
      cases hst : st.1 with
      | nil => rw [hst] at hfit; cases hfit
      | cons ind tl =>
        rw [hst] at hfit
        obtain ⟨hpop, hch⟩ : ind :: tl = pop ∧ ind.fenotype = champ := by
          have := Option.some.inj hfit
          exact ⟨congrArg Prod.fst this, congrArg Prod.snd this⟩
        rw [hst] at hQ
        subst hpop
        subst hch
        refine ⟨List.cons_ne_nil ind tl, rfl, ?_⟩
        intro hnan
        exact goodSorted_head_min hQ.1 hQ.2 hnan

/-- The final population of the concrete single-objective run. -/
def popC1W : List (IndividualClass Nat) :=
  [{ fenotype := 0, evaluation := .scalar (XR.fin 0), objective_values := some [0] },
   { fenotype := 1, evaluation := .scalar (XR.fin 1), objective_values := some [1] },
   { fenotype := 2, evaluation := .scalar (XR.fin 2), objective_values := some [2] }]

/-- C1 witness: on the concrete single-objective run the champion is the head
fenotype, the final population is `nan`-free, and the head evaluation is
lexicographically minimal. -/
theorem C1_amended_witness :
    popC1W ≠ [] ∧ (0 : Nat) = (popC1W.headD default).fenotype ∧
    ∀ ind ∈ popC1W, ((popC1W.headD default).evaluation).lexLe ind.evaluation = true := by
  obtain ⟨h1, h2, h3⟩ :=
    C1_champion_and_final_minimality gpSingleW 0 0 (fun n => n) popC1W 0 (by decide)
  refine ⟨h1, h2, h3 ?_⟩
  intro ind hind
  rcases List.mem_cons.1 hind with rfl | hind
  · simp [Evaluation.NanFree]
  rcases List.mem_cons.1 hind with rfl | hind
  · simp [Evaluation.NanFree]
  rcases List.mem_cons.1 hind with rfl | hind
  · simp [Evaluation.NanFree]
  cases hind

/-- A model whose predictions are the fenotypes themselves, used as indices
into the objective tables of `gpNanW`. -/
def nanModel : ModelClass Nat Nat Nat :=
  { generate_population := fun n => List.range n
    mutate := fun f => f
    crossover := fun a b => a
    evaluate := fun f _x => f }

/-- A two-objective SPEA2 engine on four individuals with objective vectors
`(1,2), (2,1), (3,4), (4,3)`: every individual is first or last in some
objective's sorted order, so every crowding-distance sum contains a `-inf`
boundary term, `max_cd = -inf`, and every inverted crowding distance is
`(-inf) - (-inf) = nan`. -/
def gpNanW : GeneticProgramClass Nat Nat Nat Nat :=
  GeneticProgramClass.init 4 1 nanModel
    [fun (_y : Nat) p => ([1, 2, 3, 4] : List ℚ).getD p 0,
     fun (_y : Nat) p => ([2, 1, 4, 3] : List ℚ).getD p 0]
    "SPEA2" "tournament" 1 2

/-- The final population the run of `gpNanW` returns: every evaluation's
second component is `nan`. -/
def popNanW : List (IndividualClass Nat) :=
  [{ fenotype := 2, evaluation := .vec [XR.ofInt 0, XR.nan],
     objective_values := some [3, 4] },
   { fenotype := 3, evaluation := .vec [XR.ofInt 0, XR.nan],
     objective_values := some [4, 3] },
   { fenotype := 0, evaluation := .vec [XR.ofInt 4, XR.nan],
     objective_values := some [1, 2] },
   { fenotype := 1, evaluation := .vec [XR.ofInt 4, XR.nan],
     objective_values := some [2, 1] }]

/-- C1 counterexample: the two-objective SPEA2 run of `gpNanW` completes
normally, yet every inverted crowding distance is `(-inf) - (-inf) = nan`, so
`population[0]`'s evaluation `[0, nan]` is not lexicographically ≤ itself:
IEEE comparisons on `nan` all fail, so the claimed minimality of the
champion's evaluation is already false at index `0` — under the lexicographic
`≤` as well as under Python's own `<` and `==`. -/
theorem C1_counterexample :
    gpNanW.fit 0 0 (fun n => n) = some (popNanW, 2)
    ∧ (popNanW.headD default).evaluation = Evaluation.vec [XR.ofInt 0, XR.nan]
    ∧ Evaluation.lexLe (Evaluation.vec [XR.ofInt 0, XR.nan])
        (Evaluation.vec [XR.ofInt 0, XR.nan]) = false
    ∧ Evaluation.pyLt (Evaluation.vec [XR.ofInt 0, XR.nan])
        (Evaluation.vec [XR.ofInt 0, XR.nan]) = false
    ∧ Evaluation.pyEq (Evaluation.vec [XR.ofInt 0, XR.nan])
        (Evaluation.vec [XR.ofInt 0, XR.nan]) = some false :=
  ⟨by decide, by decide, by decide, by decide, by decide⟩

/-! ### Claim C4: infrastructure -/

/-- The state of `_crowding_distance`'s objective loop after processing
dimensions `0, ..., k-1`: the carried-over `items` list (re-sorted in place
each dimension, so ties in a later dimension break by the previous
dimension's order) and the `distances` accumulator. -/
def cdStateAt (vals : List (List ℚ)) : Nat → List CDItem × DistMap
  | 0 => (cdInit vals, DistMap.empty)
  | k + 1 => cdStep (cdStateAt vals k) k

theorem cdFold_eq_stateAt (vals : List (List ℚ)) (k : Nat) :
    (List.range k).foldl cdStep (cdInit vals, DistMap.empty) = cdStateAt vals k := by
  induction k with
  | zero => rfl
  | succ k ih =>
    rw [List.range_succ, List.foldl_append, ih, List.foldl_cons, List.foldl_nil, cdStateAt]

theorem cdStateAt_fst (vals : List (List ℚ)) (k : Nat) :
    (cdStateAt vals (k + 1)).1 = cdSortDim k (cdStateAt vals k).1 := rfl

theorem cdItemsAt_perm (vals : List (List ℚ)) (k : Nat) :
    ((cdStateAt vals k).1).Perm (cdInit vals) := by
  induction k with
  | zero => rfl
  | succ k ih =>
    rw [cdStateAt_fst]
    exact (iSort_perm _ _).trans ih

theorem cdInit_snds (vals : List (List ℚ)) :
    (cdInit vals).map (fun it => it.2) = List.range (vals.getD 0 []).length := by
  rw [cdInit, List.map_map]
  exact List.map_id _

theorem cdInit_length (vals : List (List ℚ)) :
    (cdInit vals).length = (vals.getD 0 []).length := by
  rw [cdInit, List.length_map, List.length_range]

theorem cdItemsAt_length (vals : List (List ℚ)) (k : Nat) :
    ((cdStateAt vals k).1).length = (vals.getD 0 []).length := by
  rw [(cdItemsAt_perm vals k).length_eq, cdInit_length]

theorem cdItemsAt_snds_perm (vals : List (List ℚ)) (k : Nat) :
    (((cdStateAt vals k).1).map (fun it => it.2)).Perm
      (List.range (vals.getD 0 []).length) := by
  rw [← cdInit_snds]
  exact (cdItemsAt_perm vals k).map _

theorem cdItemsAt_snds_nodup (vals : List (List ℚ)) (k : Nat) :
    (((cdStateAt vals k).1).map (fun it => it.2)).Nodup :=
  ((cdItemsAt_snds_perm vals k).nodup_iff).2 (List.nodup_range _)

theorem mem_cdItemsAt (vals : List (List ℚ)) (k : Nat) (it : CDItem)
    (h : it ∈ (cdStateAt vals k).1) :
    it.1 = vals.map (fun row => row.getD it.2 0) ∧ it.2 < (vals.getD 0 []).length := by
  have h2 : it ∈ cdInit vals := ((cdItemsAt_perm vals k).mem_iff).1 h
  rw [cdInit] at h2
  rcases List.mem_map.1 h2 with ⟨i, hi, rfl⟩
  exact ⟨rfl, List.mem_range.1 hi⟩

theorem item_key_eq (vals : List (List ℚ)) {d : Nat} (hd : d < vals.length)
    {it : CDItem} (h : it.1 = vals.map (fun row => row.getD it.2 0)) :
    it.1.getD d 0 = objVal vals d it.2 := by
  rw [h, List.getD_eq_getElem?_getD, List.getElem?_map, List.getElem?_eq_getElem hd]
  simp [objVal, List.getD_eq_getElem?_getD, List.getElem?_eq_getElem hd]

theorem itemsAt_sorted_key (vals : List (List ℚ)) (d : Nat) :
    ((cdStateAt vals (d + 1)).1).Pairwise (fun a b => a.1.getD d 0 ≤ b.1.getD d 0) := by
  rw [cdStateAt_fst]
  have h := iSort_pairwise (fun (a b : CDItem) => decide (a.1.getD d 0 ≤ b.1.getD d 0))
    (cdStateAt vals d).1
    (fun a _ b _ => by
      rcases le_total (a.1.getD d 0) (b.1.getD d 0) with h | h
      · exact Or.inl (decide_eq_true h)
      · exact Or.inr (decide_eq_true h))
    (fun a _ b _ c _ h1 h2 =>
      decide_eq_true (le_trans (of_decide_eq_true h1) (of_decide_eq_true h2)))
  exact h.imp (fun hab => of_decide_eq_true hab)

/-! DistMap bookkeeping -/

theorem DistMap.push_val_self (m : DistMap) (k : Nat) (x : XR) :
    (m.push k x).val k = m.val k ++ [x] := by
  rw [DistMap.push]
  simp

theorem DistMap.push_val_ne (m : DistMap) (k : Nat) (x : XR) {j : Nat} (h : j ≠ k) :
    (m.push k x).val j = m.val j := by
  rw [DistMap.push]
  simp [h]

theorem DistMap.mem_push (m : DistMap) (k : Nat) (x : XR) (j : Nat) :
    j ∈ (m.push k x).keys ↔ j ∈ m.keys ∨ j = k := by
  rw [DistMap.push]
  by_cases h : k ∈ m.keys
  · rw [if_pos h]
    constructor
    · exact Or.inl
    · rintro (hj | rfl)
      · exact hj
      · exact h
  · rw [if_neg h]
    simp

theorem DistMap.push_nodup (m : DistMap) (k : Nat) (x : XR)
    (h : m.keys.Nodup) : (m.push k x).keys.Nodup := by
  rw [DistMap.push]
  by_cases hk : k ∈ m.keys
  · rw [if_pos hk]; exact h
  · rw [if_neg hk]
    exact List.Nodup.append h (List.nodup_singleton k) (by simpa using hk)

theorem foldl_push_val (κ : Nat → Nat) (v : Nat → XR) :
    ∀ (l : List Nat) (m : DistMap) (j : Nat),
      ((l.foldl (fun mm q => mm.push (κ q) (v q)) m).val j)
        = m.val j ++ (l.filter (fun q => decide (κ q = j))).map v := by
  intro l
  induction l with
  | nil => intro m j; simp
  | cons a t ih =>
    intro m j
    rw [List.foldl_cons, ih]
    by_cases h : κ a = j
    · subst h
      rw [DistMap.push_val_self]
      simp [List.filter_cons]
    · rw [DistMap.push_val_ne _ _ _ (fun hh => h hh.symm)]
      simp [List.filter_cons, h]

theorem foldl_push_mem_keys (κ : Nat → Nat) (v : Nat → XR) :
    ∀ (l : List Nat) (m : DistMap) (j : Nat),
      (j ∈ (l.foldl (fun mm q => mm.push (κ q) (v q)) m).keys
        ↔ j ∈ m.keys ∨ ∃ q ∈ l, κ q = j) := by
  intro l
  induction l with
  | nil => intro m j; simp
  | cons a t ih =>
    intro m j
    rw [List.foldl_cons, ih, DistMap.mem_push]
    constructor
    · rintro ((hj | rfl) | ⟨q, hq, rfl⟩)
      · exact Or.inl hj
      · exact Or.inr ⟨a, by simp⟩
      · exact Or.inr ⟨q, by simp [hq]⟩
    · rintro (hj | ⟨q, hq, rfl⟩)
      · exact Or.inl (Or.inl hj)
      · rcases List.mem_cons.1 hq with rfl | hq
        · exact Or.inl (Or.inr rfl)
        · exact Or.inr ⟨q, hq, rfl⟩

theorem foldl_push_nodup (κ : Nat → Nat) (v : Nat → XR) :
    ∀ (l : List Nat) (m : DistMap), m.keys.Nodup →
      ((l.foldl (fun mm q => mm.push (κ q) (v q)) m).keys).Nodup := by
  intro l
  induction l with
  | nil => intro m h; exact h
  | cons a t ih =>
    intro m h
    rw [List.foldl_cons]
    exact ih _ (DistMap.push_nodup m _ _ h)

theorem filter_eq_singleton_of_nodup {p : Nat} :
    ∀ (l : List Nat), l.Nodup → p ∈ l →
      l.filter (fun q => decide (q = p)) = [p] := by
  intro l
  induction l with
  | nil => intro _ h; cases h
  | cons a t ih =>
    intro hnd hp
    by_cases hap : a = p
    · subst hap
      rw [List.filter_cons_of_pos (by simp)]
      have h0 : t.filter (fun q => decide (q = a)) = [] := by
        refine List.filter_eq_nil_iff.2 (fun q hq => ?_)
        simp only [decide_eq_true_eq]
        rintro rfl
        exact (List.nodup_cons.1 hnd).1 hq
      rw [h0]
    · have hp2 : p ∈ t := by
        rcases List.mem_cons.1 hp with h | h
        · exact absurd h.symm hap
        · exact h
      rw [List.filter_cons_of_neg (by simpa using hap)]
      exact ih (List.nodup_cons.1 hnd).2 hp2

/-- Spec-side contribution of one objective dimension to one individual, as
the spec words it: given the index sequence `ord` of the individuals sorted by
this dimension's value, the two boundary individuals receive negative
infinity, and an interior individual receives the difference between its two
neighbors' values in this dimension. -/
def specContrib (vrow : List ℚ) (ord : List Nat) (i : Nat) : XR :=
  if ord.indexOf i = 0 ∨ ord.indexOf i = ord.length - 1 then XR.negInf
  else XR.fin (vrow.getD (ord.getD (ord.indexOf i + 1) 0) 0
    - vrow.getD (ord.getD (ord.indexOf i - 1) 0) 0)

theorem getD_snd_eq {l : List CDItem} {q : Nat} (hq : q < l.length) :
    (l.getD q cdDummy).2 = (l.map (fun it => it.2)).getD q 0 := by
  rw [List.getD_eq_getElem l cdDummy hq,
    List.getD_eq_getElem (l.map (fun it => it.2)) 0 (by simpa using hq),
    List.getElem_map]

theorem cdStep_val_general (vals : List (List ℚ)) (d : Nat) (hd : d < vals.length)
    (its : List CDItem) (dm : DistMap) (i : Nat)
    (hn3 : 3 ≤ (cdSortDim d its).length)
    (hnd : ((cdSortDim d its).map (fun it => it.2)).Nodup)
    (hmemit : ∀ it ∈ cdSortDim d its, it.1 = vals.map (fun row => row.getD it.2 0))
    (hi : i ∈ (cdSortDim d its).map (fun it => it.2)) :
    ((cdStep (its, dm) d).2).val i
      = dm.val i ++ [specContrib (vals.getD d [])
          ((cdSortDim d its).map (fun it => it.2)) i] := by
  rw [cdStep]
  dsimp only
  set s := cdSortDim d its with hs
  set ord := s.map (fun it => it.2) with hord
  have hordlen : ord.length = s.length := by rw [hord, List.length_map]
  set p := ord.indexOf i with hp
  have hplen : p < ord.length := List.indexOf_lt_length.2 hi
  have hgetp : ord.getD p 0 = i := by
    rw [List.getD_eq_getElem ord 0 hplen]
    exact List.getElem_indexOf hplen
  have hinj : ∀ q, q < ord.length → (ord.getD q 0 = i ↔ q = p) := by
    intro q hq
    constructor
    · intro hqi
      have h1 : ord[q] = ord[p] := by
        rw [← List.getD_eq_getElem ord 0 hq, ← List.getD_eq_getElem ord 0 hplen, hqi, hgetp]
      exact (hnd.getElem_inj_iff).1 h1
    · rintro rfl
      exact hgetp
  have hκ : ∀ q, q < s.length → (s.getD q cdDummy).2 = ord.getD q 0 := by
    intro q hq
    exact getD_snd_eq hq
  have hkey : ∀ q, q < s.length →
      (s.getD q cdDummy).1.getD d 0 = (vals.getD d []).getD (ord.getD q 0) 0 := by
    intro q hq
    have hmem2 : s.getD q cdDummy ∈ s := by
      rw [List.getD_eq_getElem s cdDummy hq]
      exact List.getElem_mem hq
    have h1 := item_key_eq vals hd (hmemit _ hmem2)
    rw [h1, objVal, hκ q hq]
  rw [foldl_push_val (fun q => (s.getD q cdDummy).2)
    (fun q => XR.fin ((s.getD (q + 1) cdDummy).1.getD d 0
      - (s.getD (q - 1) cdDummy).1.getD d 0))]
  have hκ0 : (s.getD 0 cdDummy).2 = ord.getD 0 0 := hκ 0 (by omega)
  have hκL : (s.getD (s.length - 1) cdDummy).2 = ord.getD (s.length - 1) 0 :=
    hκ (s.length - 1) (by omega)
  have hmemrange : ∀ q ∈ List.range' 1 (s.length - 2), 1 ≤ q ∧ q < s.length - 1 := by
    intro q hq
    have := List.mem_range'_1.1 hq
    omega
  rcases Nat.lt_trichotomy p 1 with hp0 | hcases
  · -- p = 0 : the head boundary individual
    have hp0 : p = 0 := by omega
    have hgetp0 : ord.getD 0 0 = i := by
      rw [hp0] at hgetp
      exact hgetp
    have hi0 : (s.getD 0 cdDummy).2 = i := by
      rw [hκ0, hgetp0]
    have hiL : i ≠ (s.getD (s.length - 1) cdDummy).2 := by
      rw [hκL]
      intro h
      have := (hinj (s.length - 1) (by omega)).1 h.symm
      omega
    have hfilter : (List.range' 1 (s.length - 2)).filter
        (fun q => decide ((s.getD q cdDummy).2 = i)) = [] := by
      refine List.filter_eq_nil_iff.2 (fun q hq => ?_)
      simp only [decide_eq_true_eq]
      intro hqi
      rcases hmemrange q hq with ⟨h1q, hq1⟩
      rw [hκ q (by omega)] at hqi
      have := (hinj q (by omega)).1 hqi
      omega
    rw [hfilter, List.map_nil, List.append_nil,
      DistMap.push_val_ne _ _ _ hiL, hi0, DistMap.push_val_self]
    have hcontrib : specContrib (vals.getD d []) ord i = XR.negInf := by
      rw [specContrib, if_pos]
      left
      rw [← hp, hp0]
    rw [hcontrib]
  · rcases Nat.lt_trichotomy p (s.length - 1) with hpmid | hplast
    · -- interior individual: 1 ≤ p ≤ s.length - 2
      have hpi : 1 ≤ p ∧ p ≤ s.length - 2 := by
        constructor <;> omega
      have hi0 : i ≠ (s.getD 0 cdDummy).2 := by
        rw [hκ0]
        intro h
        have := (hinj 0 (by omega)).1 h.symm
        omega
      have hiL : i ≠ (s.getD (s.length - 1) cdDummy).2 := by
        rw [hκL]
        intro h
        have := (hinj (s.length - 1) (by omega)).1 h.symm
        omega
      have hfilter : (List.range' 1 (s.length - 2)).filter
          (fun q => decide ((s.getD q cdDummy).2 = i)) = [p] := by
        have hcongr : (List.range' 1 (s.length - 2)).filter
            (fun q => decide ((s.getD q cdDummy).2 = i))
          = (List.range' 1 (s.length - 2)).filter (fun q => decide (q = p)) := by
          refine List.filter_congr (fun q hq => ?_)
          rcases hmemrange q hq with ⟨h1q, hq1⟩
          refine decide_eq_decide.2 ?_
          rw [hκ q (by omega)]
          exact hinj q (by omega)
        rw [hcongr]
        refine filter_eq_singleton_of_nodup _ (List.nodup_range' _ _) ?_
        rw [List.mem_range'_1]
        omega
      rw [hfilter, List.map_cons, List.map_nil,
        DistMap.push_val_ne _ _ _ hiL, DistMap.push_val_ne _ _ _ hi0]
      have hcontrib : specContrib (vals.getD d []) ord i
          = XR.fin ((s.getD (p + 1) cdDummy).1.getD d 0
            - (s.getD (p - 1) cdDummy).1.getD d 0) := by
        rw [specContrib, if_neg (by rw [← hp, hordlen]; omega)]
        rw [← hp, hkey (p + 1) (by omega), hkey (p - 1) (by omega)]
      rw [hcontrib]
    · -- p = s.length - 1 : the tail boundary individual
      have hpL : p = s.length - 1 := by
        rw [hordlen] at hplen
        omega
      have hi0 : i ≠ (s.getD 0 cdDummy).2 := by
        rw [hκ0]
        intro h
        have := (hinj 0 (by omega)).1 h.symm
        omega
      have hiL : (s.getD (s.length - 1) cdDummy).2 = i := by
        rw [hκL, ← hpL, hgetp]
      have hfilter : (List.range' 1 (s.length - 2)).filter
          (fun q => decide ((s.getD q cdDummy).2 = i)) = [] := by
        refine List.filter_eq_nil_iff.2 (fun q hq => ?_)
        simp only [decide_eq_true_eq]
        intro hqi
        rcases hmemrange q hq with ⟨h1q, hq1⟩
        rw [hκ q (by omega)] at hqi
        have := (hinj q (by omega)).1 hqi
        omega
      rw [hfilter, List.map_nil, List.append_nil, hiL, DistMap.push_val_self,
        DistMap.push_val_ne _ _ _ hi0]
      have hcontrib : specContrib (vals.getD d []) ord i = XR.negInf := by
        rw [specContrib, if_pos]
        right
        rw [← hp, hpL, hordlen]
      rw [hcontrib]

theorem cdStep_keys_nodup (d : Nat) (st : List CDItem × DistMap)
    (h : st.2.keys.Nodup) : (cdStep st d).2.keys.Nodup := by
  rw [cdStep]
  dsimp only
  exact foldl_push_nodup _ _ _ _
    (DistMap.push_nodup _ _ _ (DistMap.push_nodup _ _ _ h))

theorem cdStep_keys_subset (d : Nat) (st : List CDItem × DistMap)
    (hlen : 3 ≤ (cdSortDim d st.1).length) :
    ∀ j ∈ (cdStep st d).2.keys, j ∈ st.2.keys ∨
      ∃ q, q < (cdSortDim d st.1).length ∧ j = ((cdSortDim d st.1).getD q cdDummy).2 := by
  intro j hj
  rw [cdStep] at hj
  dsimp only at hj
  rw [foldl_push_mem_keys (fun q => ((cdSortDim d st.1).getD q cdDummy).2)
    (fun q => XR.fin (((cdSortDim d st.1).getD (q + 1) cdDummy).1.getD d 0
      - ((cdSortDim d st.1).getD (q - 1) cdDummy).1.getD d 0))] at hj
  rcases hj with hj | ⟨q, hq, rfl⟩
  · rw [DistMap.mem_push] at hj
    rcases hj with hj | rfl
    · rw [DistMap.mem_push] at hj
      rcases hj with hj | rfl
      · exact Or.inl hj
      · exact Or.inr ⟨0, by omega, rfl⟩
    · exact Or.inr ⟨(cdSortDim d st.1).length - 1, by omega, rfl⟩
  · have := List.mem_range'_1.1 hq
    exact Or.inr ⟨q, by omega, rfl⟩

theorem cdStep_keys_cover (d : Nat) (st : List CDItem × DistMap)
    (hlen : 3 ≤ (cdSortDim d st.1).length) :
    ∀ q, q < (cdSortDim d st.1).length →
      ((cdSortDim d st.1).getD q cdDummy).2 ∈ (cdStep st d).2.keys := by
  intro q hq
  rw [cdStep]
  dsimp only
  rw [foldl_push_mem_keys (fun q => ((cdSortDim d st.1).getD q cdDummy).2)
    (fun q => XR.fin (((cdSortDim d st.1).getD (q + 1) cdDummy).1.getD d 0
      - ((cdSortDim d st.1).getD (q - 1) cdDummy).1.getD d 0))]
  rcases Nat.eq_zero_or_pos q with rfl | hq1
  · left
    rw [DistMap.mem_push, DistMap.mem_push]
    left
    right
    rfl
  · rcases Nat.lt_trichotomy q ((cdSortDim d st.1).length - 1) with h2 | h2 | h2
    · right
      exact ⟨q, List.mem_range'_1.2 (by omega), rfl⟩
    · left
      rw [DistMap.mem_push]
      right
      rw [h2]
    · exact absurd hq (by omega)

theorem cdStateAt_keys (vals : List (List ℚ))
    (hn3 : 3 ≤ (vals.getD 0 []).length) (k : Nat) (hk : k ≤ vals.length) :
    (∀ j ∈ (cdStateAt vals k).2.keys, j < (vals.getD 0 []).length)
    ∧ (cdStateAt vals k).2.keys.Nodup
    ∧ (1 ≤ k → ∀ j, j < (vals.getD 0 []).length → j ∈ (cdStateAt vals k).2.keys) := by
  induction k with
  | zero =>
    refine ⟨?_, ?_, ?_⟩
    · intro j hj; cases hj
    · exact List.nodup_nil
    · intro h; omega
  | succ k ih =>
    obtain ⟨ihb, ihnd, _⟩ := ih (by omega)
    have hsortlen : 3 ≤ (cdSortDim k (cdStateAt vals k).1).length := by
      have h1 : cdSortDim k (cdStateAt vals k).1 = (cdStateAt vals (k + 1)).1 := rfl
      rw [h1, cdItemsAt_length]
      exact hn3
    refine ⟨?_, ?_, ?_⟩
    · intro j hj
      rcases cdStep_keys_subset k (cdStateAt vals k) hsortlen j hj with hj | ⟨q, hq, rfl⟩
      · exact ihb j hj
      · have hmem2 : (cdSortDim k (cdStateAt vals k).1).getD q cdDummy
            ∈ (cdStateAt vals (k + 1)).1 := by
          rw [List.getD_eq_getElem _ cdDummy hq]
          exact List.getElem_mem hq
        exact (mem_cdItemsAt vals (k + 1) _ hmem2).2
    · exact cdStep_keys_nodup k (cdStateAt vals k) ihnd
    · intro _ j hj
      have hsS : cdSortDim k (cdStateAt vals k).1 = (cdStateAt vals (k + 1)).1 := rfl
      have hj2 : j ∈ ((cdStateAt vals (k + 1)).1).map (fun it => it.2) :=
        ((cdItemsAt_snds_perm vals (k + 1)).mem_iff).2 (List.mem_range.2 hj)
      have hplen : List.indexOf j (((cdStateAt vals (k + 1)).1).map (fun it => it.2))
          < (((cdStateAt vals (k + 1)).1).map (fun it => it.2)).length :=
        List.indexOf_lt_length.2 hj2
      have hplen2 : List.indexOf j (((cdStateAt vals (k + 1)).1).map (fun it => it.2))
          < ((cdStateAt vals (k + 1)).1).length := by
        rw [List.length_map] at hplen
        exact hplen
      have hgetp : (((cdStateAt vals (k + 1)).1).getD
          (List.indexOf j (((cdStateAt vals (k + 1)).1).map (fun it => it.2)))
          cdDummy).2 = j := by
        rw [getD_snd_eq hplen2, List.getD_eq_getElem _ 0 hplen]
        exact List.getElem_indexOf hplen
      have hcov := cdStep_keys_cover k (cdStateAt vals k) hsortlen
        (List.indexOf j (((cdStateAt vals (k + 1)).1).map (fun it => it.2)))
        (by rw [hsS]; exact hplen2)
      rw [hsS] at hcov
      rw [hgetp] at hcov
      exact hcov

theorem cdStateAt_val (vals : List (List ℚ)) (hn3 : 3 ≤ (vals.getD 0 []).length) :
    ∀ k, k ≤ vals.length → ∀ i, i < (vals.getD 0 []).length →
      ((cdStateAt vals k).2).val i
        = (List.range k).map (fun d => specContrib (vals.getD d [])
            (((cdStateAt vals (d + 1)).1).map (fun it => it.2)) i) := by
  intro k
  induction k with
  | zero => intro _ i _; rfl
  | succ k ih =>
    intro hk i hi
    have hsS : cdSortDim k (cdStateAt vals k).1 = (cdStateAt vals (k + 1)).1 := rfl
    have hstep := cdStep_val_general vals k (by omega) (cdStateAt vals k).1
      (cdStateAt vals k).2 i
      (by rw [hsS, cdItemsAt_length]; exact hn3)
      (by rw [hsS]; exact cdItemsAt_snds_nodup vals (k + 1))
      (fun it hit => (mem_cdItemsAt vals (k + 1) it (hsS ▸ hit)).1)
      (by rw [hsS]
          exact ((cdItemsAt_snds_perm vals (k + 1)).mem_iff).2 (List.mem_range.2 hi))
    have heta : ((cdStateAt vals k).1, (cdStateAt vals k).2) = cdStateAt vals k := rfl
    rw [heta] at hstep
    have hsucc : cdStateAt vals (k + 1) = cdStep (cdStateAt vals k) k := rfl
    rw [hsucc, hstep, ih (by omega) i hi, List.range_succ, List.map_append, List.map_cons,
      List.map_nil, hsS]

/-- Spec-side raw crowding distance of individual `i`: its per-dimension
contributions averaged over the number of objectives. -/
def specRawCD (vals : List (List ℚ)) (orders : Nat → List Nat) (i : Nat) : XR :=
  (XR.listSum ((List.range vals.length).map (fun d =>
    specContrib (vals.getD d []) (orders d) i))).divNat vals.length

/-- Spec-side crowding distances, indexed by individual: each raw value
inverted against the population maximum. -/
def specCrowding (vals : List (List ℚ)) (orders : Nat → List Nat) : List XR :=
  let raws := (List.range (vals.getD 0 []).length).map (specRawCD vals orders)
  raws.map (fun r => XR.sub (XR.listMax raws) r)

theorem crowding_distance_eq_spec (vals : List (List ℚ))
    (hn3 : 3 ≤ (vals.getD 0 []).length) (hD : 1 ≤ vals.length) :
    crowding_distance vals = specCrowding vals
      (fun d => ((cdStateAt vals (d + 1)).1).map (fun it => it.2)) := by
  rw [crowding_distance]
  rw [cdFold_eq_stateAt]
  have hkeys := cdStateAt_keys vals hn3 vals.length (le_refl _)
  have hperm : ((cdStateAt vals vals.length).2.keys).Perm
      (List.range (vals.getD 0 []).length) := by
    refine List.perm_of_nodup_nodup_toFinset_eq hkeys.2.1 (List.nodup_range _) ?_
    ext j
    simp only [List.mem_toFinset, List.mem_range]
    constructor
    · exact hkeys.1 j
    · exact hkeys.2.2 hD j
  have hsorted_keys : iSort (fun a b => decide (a ≤ b))
      (cdStateAt vals vals.length).2.keys = List.range (vals.getD 0 []).length := by
    refine List.eq_of_perm_of_sorted ((iSort_perm _ _).trans hperm) ?_
      (List.sorted_le_range _)
    have h := iSort_pairwise (fun (a b : Nat) => decide (a ≤ b))
      (cdStateAt vals vals.length).2.keys
      (fun a _ b _ => by
        rcases le_total a b with h | h
        · exact Or.inl (decide_eq_true h)
        · exact Or.inr (decide_eq_true h))
      (fun a _ b _ c _ h1 h2 =>
        decide_eq_true (le_trans (of_decide_eq_true h1) (of_decide_eq_true h2)))
    exact h.imp (fun hab => of_decide_eq_true hab)
  rw [hsorted_keys]
  have hmapeq : (List.range (vals.getD 0 []).length).map
        (fun k2 => (XR.listSum ((cdStateAt vals vals.length).2.val k2)).divNat vals.length)
      = (List.range (vals.getD 0 []).length).map
        (specRawCD vals (fun d => ((cdStateAt vals (d + 1)).1).map (fun it => it.2))) := by
    refine List.map_congr_left (fun i hi => ?_)
    rw [cdStateAt_val vals hn3 vals.length (le_refl _) i (List.mem_range.1 hi)]
    rfl
  rw [hmapeq]
  rfl

set_option maxHeartbeats 2000000 in
/-- C4: for a well-formed multi-objective value matrix over at least three
individuals, `_crowding_distance` computes exactly the spec's description:
there are per-dimension index arrangements, each a permutation of the
individuals sorted ascending by that dimension's objective value (the code's
own stable in-place re-sorts), such that the result assigns negative infinity
to the two boundary individuals and the neighbor-value difference to each
interior individual per dimension, averages each individual's contributions
over the number of objectives, and returns, in individual order, the
population maximum of the raw distances minus that individual's raw distance;
and in multi-objective SPEA2 mode `_evaluate_population` stores that value as
the second evaluation component (after the SPEA2 raw fitness). -/
theorem C4_crowding_distance_and_second_component (vals : List (List ℚ))
    (hn3 : 3 ≤ (vals.getD 0 []).length) (hD : 1 ≤ vals.length)
    (hwf : ∀ row ∈ vals, row.length = (vals.getD 0 []).length) :
    (∃ orders : Nat → List Nat,
      (∀ d, d < vals.length →
        (orders d).Perm (List.range (vals.getD 0 []).length) ∧
        ((orders d).map (fun i => objVal vals d i)).Sorted (· ≤ ·)) ∧
      crowding_distance vals = specCrowding vals orders)
    ∧ (∀ {F X Y P : Type} (gp : GeneticProgramClass F X Y P) (x : X) (y : Y)
        (pop pe : List (IndividualClass F)),
        gp.objectives ≠ 1 → gp.multiobjective_fitness = "SPEA2" →
        gp.evaluate_population x y pop = some pe →
        ∀ (i : Nat) (ind2 : IndividualClass F), pe[i]? = some ind2 →
          ind2.evaluation = Evaluation.vec [
            XR.ofInt ((spea2 gp.objectives
              (gp.objective_values_matrix (gp.fill_objective_values x y pop))).getD i 0),
            (crowding_distance
              (gp.objective_values_matrix (gp.fill_objective_values x y pop))).getD i XR.nan]) := by
  constructor
  · refine ⟨fun d => ((cdStateAt vals (d + 1)).1).map (fun it => it.2), ?_,
      crowding_distance_eq_spec vals hn3 hD⟩
    intro d hd
    refine ⟨cdItemsAt_snds_perm vals (d + 1), ?_⟩
    have hmapeq : (((cdStateAt vals (d + 1)).1).map (fun it => it.2)).map
          (fun i => objVal vals d i)
        = ((cdStateAt vals (d + 1)).1).map (fun it => it.1.getD d 0) := by
      rw [List.map_map]
      refine List.map_congr_left (fun it hit => ?_)
      exact (item_key_eq vals hd (mem_cdItemsAt vals (d + 1) it hit).1).symm
    rw [hmapeq]
    exact (itemsAt_sorted_key vals d).map _ (fun a b hab => hab)
  · intro F X Y P gp x y pop pe h1 h2 hev i ind2 hind
    rw [GeneticProgramClass.evaluate_population, if_neg h1, if_pos h2] at hev
    obtain rfl := (Option.some.inj hev).symm
    rw [getElem?_zipWith_range, getElem?_zipWith_range] at hind
    cases hw : (gp.fill_objective_values x y pop)[i]? with
    | none => rw [hw] at hind; cases hind
    | some w =>
      rw [hw] at hind
      obtain rfl := (Option.some.inj hind).symm
      rfl

/-- C4 witness: the spec's scenario matrix `obj1 = [1,2,3,4]`,
`obj2 = [4,3,2,1]` (four individuals, two objectives). -/
theorem C4_witness :
    (∃ orders : Nat → List Nat,
      (∀ d, d < ([[1, 2, 3, 4], [4, 3, 2, 1]] : List (List ℚ)).length →
        (orders d).Perm (List.range
          (([[1, 2, 3, 4], [4, 3, 2, 1]] : List (List ℚ)).getD 0 []).length) ∧
        ((orders d).map (fun i =>
          objVal [[1, 2, 3, 4], [4, 3, 2, 1]] d i)).Sorted (· ≤ ·)) ∧
      crowding_distance [[1, 2, 3, 4], [4, 3, 2, 1]]
        = specCrowding [[1, 2, 3, 4], [4, 3, 2, 1]] orders)
    ∧ (∀ {F X Y P : Type} (gp : GeneticProgramClass F X Y P) (x : X) (y : Y)
        (pop pe : List (IndividualClass F)),
        gp.objectives ≠ 1 → gp.multiobjective_fitness = "SPEA2" →
        gp.evaluate_population x y pop = some pe →
        ∀ (i : Nat) (ind2 : IndividualClass F), pe[i]? = some ind2 →
          ind2.evaluation = Evaluation.vec [
            XR.ofInt ((spea2 gp.objectives
              (gp.objective_values_matrix (gp.fill_objective_values x y pop))).getD i 0),
            (crowding_distance
              (gp.objective_values_matrix (gp.fill_objective_values x y pop))).getD i XR.nan]) :=
  C4_crowding_distance_and_second_component [[1, 2, 3, 4], [4, 3, 2, 1]]
    (by decide) (by decide) (by decide)
